import Mathlib

/-!
Shallow embedding of `src/cpp/log/tree_signer.cc` (certificate-transparency
tree signer): pending-entry ordering, `TreeSigner::SequenceNewEntries`,
`TreeSigner::UpdateTree`, `TreeSigner::Append`, `TreeSigner::AppendToTree`,
`TreeSigner::TimestampAndSign` and `TreeSigner::LastUpdateTime`.

Conventions of the embedding:
* machine integers become `Nat` (for the `uint64_t` timestamps and tree sizes)
  and `Int` (for the `int64_t` sequence numbers); the one place where
  `uint64_t` wraparound is reachable (`LastUpdateTime() + 1` in `UpdateTree`)
  carries an explicit `% 2^64`;
* a glog `CHECK` failure or an `abort()` (both terminate the process) becomes
  the error `RErr.fatal msg`; a `util::Status` failure returned to the caller
  becomes `RErr.store s`;
* the collaborators that are not part of the source file (`ConsistentStore`,
  `Database`, `CompactMerkleTree`, the serializer and the signer) are modelled
  from the spec, each with a doc comment saying so; calls into the consistent
  store are modelled as injected outcomes (`RoundInputs`), and the local
  database as an association list from sequence number to entry.
-/

/-- Abstract `util::Status` error value propagated back to the caller. -/
structure UtilStatus where
  code : Nat
  deriving DecidableEq, Repr

/-- Outcome of an internal step: a store failure propagated to the caller, or
a fatal invariant violation (glog `CHECK` failure / `abort()`). -/
inductive RErr where
  | store (s : UtilStatus)
  | fatal (msg : String)
  deriving DecidableEq, Repr

/-- Result of one `SequenceNewEntries` round as observed by the caller. -/
inductive RoundResult where
  | ok
  | storeFail (s : UtilStatus)
  | fatal (msg : String)
  deriving DecidableEq, Repr

/-- A `LoggedEntry`: content hash (byte string), SCT submission timestamp in
milliseconds (`uint64_t`), and the optional assigned sequence number
(proto2 optional `int64`, so reading an unset field yields 0). -/
structure LoggedEntry where
  hash : List Nat
  timestamp : Nat
  sequence_number : Option Int
  deriving DecidableEq, Repr

/-- Proto2 getter semantics: `sequence_number()` on an entry without the field
set returns the default value 0. -/
def seqNumOrDefault (e : LoggedEntry) : Int :=
  e.sequence_number.getD 0

/-- One `SequenceMapping::Mapping` row: (entry hash, assigned sequence
number). -/
structure MappingEntry where
  entry_hash : List Nat
  sequence_number : Int
  deriving DecidableEq, Repr

/-- Lexicographic comparison of byte strings, matching `std::string`
`operator<` used as the final tie-breaker in `PendingEntriesOrder`. -/
def hashLt : List Nat → List Nat → Bool
  | [], [] => false
  | [], _ :: _ => true
  | _ :: _, [] => false
  | a :: as, b :: bs => if a < b then true else if b < a then false else hashLt as bs

/-- The comparator `PendingEntriesOrder::operator()`: order by SCT timestamp,
falling back to the content hash as the final tie-breaker. -/
def pendingEntriesOrder (x y : LoggedEntry) : Bool :=
  if x.timestamp < y.timestamp then true
  else if y.timestamp < x.timestamp then false
  else hashLt x.hash y.hash

/-- Ordered insertion used to model `std::sort` with `PendingEntriesOrder`
(the comparator is a strict weak order, so on entries with pairwise distinct
(timestamp, hash) keys the sorted permutation is unique). -/
def insertPending (e : LoggedEntry) : List LoggedEntry → List LoggedEntry
  | [] => [e]
  | g :: r => if pendingEntriesOrder e g then e :: g :: r else g :: insertPending e r

/-- Model of `std::sort(pending_entries, PendingEntriesOrder())`. -/
def sortPending : List LoggedEntry → List LoggedEntry
  | [] => []
  | e :: r => insertPending e (sortPending r)

/-- The `sequenced_hashes` table: rows (entry hash, sequence number, present
flag), in insertion order; models the `unordered_map<string, pair<int64_t,
bool>>` of `SequenceNewEntries`. -/
abbrev SeqTable : Type :=
  List (List Nat × Int × Bool)

/-- Lookup of a hash in the `sequenced_hashes` table. -/
def lookupTable : SeqTable → List Nat → Option (Int × Bool)
  | [], _ => none
  | (h, v) :: r, h' => if h = h' then some v else lookupTable r h'

/-- Mark the row of a hash as present (`seq_it->second.second = true`). -/
def markPresent : SeqTable → List Nat → SeqTable
  | [], _ => []
  | (h, s, p) :: r, h' => if h = h' then (h, s, true) :: r else (h, s, p) :: markPresent r h'

/-- Building `sequenced_hashes` from the fetched sequence mapping; the
`CHECK(... .insert(...) .second)` makes a duplicate hash in the stored
mapping fatal. -/
def buildSequencedHashesAux (acc : SeqTable) : List MappingEntry → Except RErr SeqTable
  | [] => .ok acc
  | m :: rest =>
    if (lookupTable acc m.entry_hash).isSome then
      .error (.fatal "duplicate hash in sequence mapping")
    else
      buildSequencedHashesAux (acc ++ [(m.entry_hash, m.sequence_number, false)]) rest

/-- Hashes which are already sequenced, with their present flag initialised
to false. -/
def buildSequencedHashes (mapping : List MappingEntry) : Except RErr SeqTable :=
  buildSequencedHashesAux [] mapping

/-- Keyed insertion into `seq_to_entry` (a `std::map<int64_t, const
LoggedEntry*>`, kept sorted by key); the `CHECK(... .insert(...) .second)`
makes a sequence-number collision fatal. -/
def insertSeqToEntry (k : Int) (v : LoggedEntry) : List (Int × LoggedEntry) →
    Except RErr (List (Int × LoggedEntry))
  | [] => .ok [(k, v)]
  | (k1, v1) :: r =>
    if k = k1 then .error (.fatal "duplicate sequence number in seq_to_entry")
    else if k < k1 then .ok ((k, v) :: (k1, v1) :: r)
    else (insertSeqToEntry k v r).map (fun r1 => (k1, v1) :: r1)

/-- Loop state of the pending-entry pass of `SequenceNewEntries`. -/
structure ProcState where
  newMapping : List MappingEntry
  seqToEntry : List (Int × LoggedEntry)
  table : SeqTable
  next : Int
  numSequenced : Nat
  deriving Repr

/-- Guard-window test of `SequenceNewEntries`: the entry is skipped this round
when `now - cert_time < guard_window_`. -/
def tooRecent (now guard : Int) (e : LoggedEntry) : Bool :=
  now - (e.timestamp : Int) < guard

/-- Body of the pending-entry loop of `SequenceNewEntries` for one entry:
skip it inside the guard window; otherwise assign the next available sequence
number (fresh hash) or reuse the stored one (hash already in
`sequenced_hashes`, which is fatal if seen twice or if the pending entry
already carries a sequence number); finally record the entry in
`seq_to_entry`, fatally on a sequence-number collision. -/
def processStep (now guard : Int) (st : ProcState) (e : LoggedEntry) : Except RErr ProcState :=
  if tooRecent now guard e then .ok st
  else
    match lookupTable st.table e.hash with
    | none =>
      (insertSeqToEntry st.next { e with sequence_number := some st.next } st.seqToEntry).map
        (fun s2e =>
          { newMapping := st.newMapping ++ [⟨e.hash, st.next⟩]
            seqToEntry := s2e
            table := st.table
            next := st.next + 1
            numSequenced := st.numSequenced + 1 })
    | some (s, present) =>
      if present then .error (.fatal "Saw same sequenced cert twice.")
      else if e.sequence_number.isSome then
        .error (.fatal "pending entry already has a sequence number")
      else
        (insertSeqToEntry s { e with sequence_number := some s } st.seqToEntry).map
          (fun s2e =>
            { newMapping := st.newMapping ++ [⟨e.hash, s⟩]
              seqToEntry := s2e
              table := markPresent st.table e.hash
              next := st.next
              numSequenced := st.numSequenced })

/-- The pending-entry loop of `SequenceNewEntries` over the sorted pending
entries. -/
def processPending (now guard : Int) : List LoggedEntry → ProcState → Except RErr ProcState
  | [], st => .ok st
  | e :: l, st =>
    match processStep now guard st e with
    | .error err => .error err
    | .ok st1 => processPending now guard l st1

/-- Fetched serving STH, reduced to its `tree_size()` (a `uint64_t`). -/
abbrev ServingSth : Type := Nat

/-- `INT64_MAX`. -/
def int64Max : Nat := 2 ^ 63 - 1

/-- Sanity check over `sequenced_hashes` after the pass: every previously
assigned mapping row whose pending entry was not seen again (present flag
still false) must be strictly below the serving tree size
(`CHECK_LT(s.second.first, serving_tree_size)`). -/
def servingCheckVanished (t : SeqTable) (servingTreeSize : Int) : Except RErr Unit :=
  match t with
  | [] => .ok ()
  | (_, s, present) :: r =>
    if !present ∧ ¬s < servingTreeSize then
      .error (.fatal "vanished mapping at or above serving tree size")
    else servingCheckVanished r servingTreeSize

/-- Ordered insertion by sequence number, modelling `std::sort(new_mapping,
LessThanBySequence)` (sequence numbers in `new_mapping` are pairwise distinct,
so the sorted permutation is unique). -/
def insertMappingBySeq (m : MappingEntry) : List MappingEntry → List MappingEntry
  | [] => [m]
  | g :: r =>
    if m.sequence_number < g.sequence_number then m :: g :: r else g :: insertMappingBySeq m r

/-- Model of `std::sort(new_mapping.begin(), new_mapping.end(),
LessThanBySequence)`. -/
def sortMappingBySeq : List MappingEntry → List MappingEntry
  | [] => []
  | m :: r => insertMappingBySeq m (sortMappingBySeq r)

/-- The `new_mapping.size() > 0` branch: after sorting by sequence number,
`CHECK_LE(new_mapping.Get(0).sequence_number(), serving_tree_size)`. -/
def lowestSeqCheck (sorted : List MappingEntry) (servingTreeSize : Int) : Except RErr Unit :=
  match sorted with
  | [] => .ok ()
  | m :: _ =>
    if m.sequence_number ≤ servingTreeSize then .ok ()
    else .error (.fatal "lowest new mapping above serving tree size")

/-- Modelled from the spec: the local `Database` (not part of the source
file), an association list from assigned sequence number to the stored
entry. -/
abbrev Db : Type := List (Int × LoggedEntry)

/-- Modelled from the spec: `Database::TreeSize()`, the current count of
locally known sequenced entries. -/
def dbTreeSize (db : Db) : Int :=
  Int.ofNat db.length

/-- Result codes of `Database::CreateSequencedEntry`. -/
inductive WriteResult where
  | ok
  | sequenceNumberAlreadyInUse
  deriving DecidableEq, Repr

/-- Modelled from the spec: `Database::CreateSequencedEntry`, a
conflict-checked insert keyed by the entry's claimed sequence number; it
fails with `SEQUENCE_NUMBER_ALREADY_IN_USE` when the slot is taken. -/
def createSequencedEntry (db : Db) (e : LoggedEntry) : WriteResult × Db :=
  if db.any (fun p => p.1 = seqNumOrDefault e) then (.sequenceNumberAlreadyInUse, db)
  else (.ok, db ++ [(seqNumOrDefault e, e)])

/-- The `seq_to_entry.find(db_->TreeSize())` iteration: a `std::map::find`
yields the row whose key equals the argument exactly (or `end()`), and
advancing the iterator from there walks the remaining rows in key order; on
the key-sorted `seq_to_entry` list this is the suffix starting at the exact
key, and the empty list when that key is absent. -/
def findTail (k : Int) : List (Int × LoggedEntry) → List (Int × LoggedEntry)
  | [] => []
  | (k1, v1) :: r => if k1 = k then (k1, v1) :: r else findTail k r

/-- The local-database insertion loop at the end of `SequenceNewEntries`:
`CHECK_EQ(it->first, it->second->sequence_number())` and
`CHECK_EQ(Database::OK, db_->CreateSequencedEntry(...))` for every row from
`seq_to_entry.find(db_->TreeSize())` onward. -/
def insertLocalEntries (db : Db) : List (Int × LoggedEntry) → Option String × Db
  | [] => (none, db)
  | (k, e) :: rest =>
    if e.sequence_number ≠ some k then (some "seq_to_entry key differs from sequence number", db)
    else
      match createSequencedEntry db e with
      | (.ok, db1) => insertLocalEntries db1 rest
      | (.sequenceNumberAlreadyInUse, db1) => (some "CreateSequencedEntry failed", db1)

/-- Outcomes of the consistent-store calls made during one
`SequenceNewEntries` round, together with the current time and the configured
guard window (both in milliseconds). `GetSequenceMapping` and
`UpdateSequenceMapping` act on the stored mapping held in `LogState`, so for
those two only an injected failure is modelled. -/
structure RoundInputs where
  now : Int
  guardWindow : Int
  nextSeqNum : Except UtilStatus Int
  getMappingFault : Option UtilStatus
  pendingEntries : Except UtilStatus (List LoggedEntry)
  servingSth : Except UtilStatus ServingSth
  updateMappingFault : Option UtilStatus
  deriving Repr

/-- Durable state touched by a round: the stored sequence mapping (consistent
store) and the local database. -/
structure LogState where
  mapping : List MappingEntry
  db : Db
  deriving Repr

/-- Phase one of `SequenceNewEntries`: fetch the next available sequence
number (`CHECK_GE(next_sequence_number, 0)`), fetch the mapping, build
`sequenced_hashes`, fetch the pending entries, sort them with
`PendingEntriesOrder` and run the pending-entry loop. -/
def roundProcessed (inp : RoundInputs) (st : LogState) : Except RErr ProcState :=
  match inp.nextSeqNum with
  | .error e => .error (.store e)
  | .ok c =>
    if c < 0 then .error (.fatal "next available sequence number is negative")
    else
      match inp.getMappingFault with
      | some e => .error (.store e)
      | none =>
        match buildSequencedHashes st.mapping with
        | .error err => .error err
        | .ok table =>
          match inp.pendingEntries with
          | .error e => .error (.store e)
          | .ok pending =>
            processPending inp.now inp.guardWindow (sortPending pending)
              { newMapping := [], seqToEntry := [], table := table, next := c,
                numSequenced := 0 }

/-- Fetch of the serving STH: a store failure is propagated
(`return serving_sth.status()`), and
`CHECK_LE(serving_sth.ValueOrDie().tree_size(), INT64_MAX)` is fatal. -/
def getServingSize (inp : RoundInputs) : Except RErr Int :=
  match inp.servingSth with
  | .error e => .error (.store e)
  | .ok n =>
    if int64Max < n then .error (.fatal "serving tree size exceeds INT64_MAX")
    else .ok (Int.ofNat n)

/-- Phase two of `SequenceNewEntries`: fetch the serving STH, run the
vanished-mapping sanity check and the lowest-new-mapping check. -/
def roundChecked (inp : RoundInputs) (st : LogState) : Except RErr (ProcState × Int) :=
  match roundProcessed inp st with
  | .error err => .error err
  | .ok r =>
    match getServingSize inp with
    | .error err => .error err
    | .ok z =>
      match servingCheckVanished r.table z with
      | .error err => .error err
      | .ok _ =>
        match lowestSeqCheck (sortMappingBySeq r.newMapping) z with
        | .error err => .error err
        | .ok _ => .ok (r, z)

/-- The sequence mapping handed to `UpdateSequenceMapping` by a round that
reaches the write: the freshly rebuilt `new_mapping`, sorted by sequence
number (the unconditional `Swap` makes it replace the stored mapping even
when it is empty). -/
def computedMapping (inp : RoundInputs) (st : LogState) : Except RErr (List MappingEntry) :=
  match roundChecked inp st with
  | .error err => .error err
  | .ok (r, _) => .ok (sortMappingBySeq r.newMapping)

/-- Conversion of an internal error to the caller-visible round result. -/
def toRoundResult : RErr → RoundResult
  | .store s => .storeFail s
  | .fatal m => .fatal m

/-- `TreeSigner::SequenceNewEntries`, returning the round result together
with the durable state (stored mapping and local database) it leaves behind;
a store failure or a fatal check before the `UpdateSequenceMapping` write
leaves the state untouched, and a fatal check in the local-database loop
leaves the rows inserted before it. -/
def SequenceNewEntries (inp : RoundInputs) (st : LogState) : RoundResult × LogState :=
  match roundChecked inp st with
  | .error err => (toRoundResult err, st)
  | .ok (r, _) =>
    match inp.updateMappingFault with
    | some s => (.storeFail s, st)
    | none =>
      let st1 : LogState := { st with mapping := sortMappingBySeq r.newMapping }
      match insertLocalEntries st1.db (findTail (dbTreeSize st.db) r.seqToEntry) with
      | (some m, db1) => (.fatal m, { st1 with db := db1 })
      | (none, db1) => (.ok, { st1 with db := db1 })

/-- Modelled from the spec: `LoggedEntry::SerializeForLeaf`, the canonical
injective leaf serialization; the leaf is represented by the entry itself, so
the `CHECK(logged.SerializeForLeaf(&serialized_leaf))` always passes in the
model. -/
def serializeForLeaf (e : LoggedEntry) : LoggedEntry :=
  e

/-- Modelled from the spec: `CompactMerkleTree::CurrentRoot()`, the root hash
summarizing the leaf sequence; represented abstractly (and collision-freely)
by the leaf sequence itself. -/
def currentRoot (leaves : List LoggedEntry) : List LoggedEntry :=
  leaves

/-- A `ct::SignedTreeHead` as filled in by `TimestampAndSign`: version `V1`,
root hash, timestamp (`uint64_t` milliseconds), tree size, and whether the
signature field was populated. -/
structure SignedTreeHead where
  version : Nat
  sha256_root_hash : List LoggedEntry
  timestamp : Nat
  tree_size : Nat
  signed_ok : Bool
  deriving DecidableEq, Repr

/-- In-memory state of a `TreeSigner`: the leaves of `cert_tree_` (the
`CompactMerkleTree`) and `latest_tree_head_`. -/
structure TreeSignerState where
  leaves : List LoggedEntry
  latestTreeHead : SignedTreeHead
  deriving Repr

/-- `TreeSigner::LastUpdateTime`: the timestamp of `latest_tree_head_`. -/
def LastUpdateTime (s : TreeSignerState) : Nat :=
  s.latestTreeHead.timestamp

/-- `TreeSigner::AppendToTree`: serialize the entry and append it to the
in-memory tree, unconditionally. -/
def AppendToTree (logged : LoggedEntry) (leaves : List LoggedEntry) : List LoggedEntry :=
  leaves ++ [serializeForLeaf logged]

namespace TreeSigner

/-- C++ `TreeSigner::Append`: serialize, `CHECK_LE(LeafCount(), INT64_MAX)`,
`CHECK_EQ(sequence_number, LeafCount())`, then try the conflict-checked
database insert; only on `Database::OK` is the leaf appended to the in-memory
tree (returning true), while `SEQUENCE_NUMBER_ALREADY_IN_USE` logs and
returns false with the tree untouched (any other write result is fatal, but
the modelled database has no other failure). -/
def Append (logged : LoggedEntry) (leaves : List LoggedEntry) (db : Db) :
    Except RErr (Bool × List LoggedEntry × Db) :=
  if ¬leaves.length ≤ int64Max then .error (.fatal "leaf count exceeds INT64_MAX")
  else if seqNumOrDefault logged ≠ Int.ofNat leaves.length then
    .error (.fatal "sequence number differs from leaf count")
  else
    match createSequencedEntry db logged with
    | (.ok, db1) => .ok (true, leaves ++ [serializeForLeaf logged], db1)
    | (.sequenceNumberAlreadyInUse, db1) => .ok (false, leaves, db1)

end TreeSigner

/-- Ordered insertion by sequence number of database rows, used to model the
key order of the scan. -/
def insertDbRow (p : Int × LoggedEntry) : List (Int × LoggedEntry) → List (Int × LoggedEntry)
  | [] => [p]
  | q :: r => if p.1 < q.1 then p :: q :: r else q :: insertDbRow p r

/-- Sorting of database rows by sequence number. -/
def sortDbRows : List (Int × LoggedEntry) → List (Int × LoggedEntry)
  | [] => []
  | p :: r => insertDbRow p (sortDbRows r)

/-- Modelled from the spec: `Database::ScanEntries(start)`, an iterator
yielding the stored entries with sequence number at least `start`, in
increasing sequence order. -/
def scanEntries (db : Db) (start : Int) : List (Int × LoggedEntry) :=
  sortDbRows (db.filter (fun p => start ≤ p.1))

/-- The leaves consumed by the scan loop of `UpdateTree`: take entries while
each one's sequence number equals the expected next index `i`, stopping at
the first mismatch or at end of data. -/
def takeSeqRun : List (Int × LoggedEntry) → Int → List LoggedEntry
  | [], _ => []
  | (k, e) :: r, i => if k = i then e :: takeSeqRun r (i + 1) else []

/-- The scan loop of `UpdateTree`: starting at the current leaf count,
append each contiguously sequenced entry to the tree (`AppendToTree`) and
raise `min_timestamp` to the largest entry timestamp observed. -/
def updateTreeLoop : List (Int × LoggedEntry) → Int → List LoggedEntry → Nat →
    List LoggedEntry × Nat
  | [], _, leaves, minT => (leaves, minT)
  | (k, e) :: r, i, leaves, minT =>
    if k = i then updateTreeLoop r (i + 1) (AppendToTree e leaves) (max minT e.timestamp)
    else (leaves, minT)

/-- `TreeSigner::TimestampAndSign`: build the tree head with version `V1`,
the current root, the clock reading clamped upward to `min_timestamp`, and
the current leaf count; a signing failure calls `abort()`. -/
def TimestampAndSign (clock minTimestamp : Nat) (leaves : List LoggedEntry)
    (signOk : Bool) : Except RErr SignedTreeHead :=
  let ts := if clock < minTimestamp then minTimestamp else clock
  if signOk then
    .ok { version := 1, sha256_root_hash := currentRoot leaves, timestamp := ts,
          tree_size := leaves.length, signed_ok := true }
  else .error (.fatal "SignTreeHead failed")

/-- `TreeSigner::UpdateTree`: set the minimum acceptable timestamp to
`LastUpdateTime() + 1` (a `uint64_t` sum, hence the `% 2^64`), scan the local
database from the current leaf count appending contiguously sequenced
entries, then timestamp-and-sign and replace `latest_tree_head_`. The
`clock` argument is the `util::TimeInMilliseconds()` reading and `signOk`
whether `LogSigner::SignTreeHead` succeeds. -/
def UpdateTree (clock : Nat) (signOk : Bool) (db : Db) (s : TreeSignerState) :
    Except RErr TreeSignerState :=
  let minT0 := (LastUpdateTime s + 1) % 2 ^ 64
  let start := Int.ofNat s.leaves.length
  let scanned := updateTreeLoop (scanEntries db start) start s.leaves minT0
  match TimestampAndSign clock scanned.2 scanned.1 signOk with
  | .error err => .error err
  | .ok sth => .ok { leaves := scanned.1, latestTreeHead := sth }


/-- First-match lookup of a hash's assigned sequence number in a list of
mapping rows. -/
def assocSeq : List MappingEntry -> List Nat -> Option Int
  | [], _ => none
  | m :: r, h => if m.entry_hash = h then some m.sequence_number else assocSeq r h

/-- The `sequenced_hashes` row built from one stored mapping row. -/
def mappingRow (m : MappingEntry) : List Nat × Int × Bool :=
  (m.entry_hash, m.sequence_number, false)

/-- One of the five consistent-store calls of a `SequenceNewEntries` round is
reached and fails with status `e`: `NextAvailableSequenceNumber`,
`GetSequenceMapping`, `GetPendingEntries`, `GetServingSTH` or
`UpdateSequenceMapping`; each case records that the calls and checks before
it succeeded, so the round actually reaches the failing call. -/
def storeCallFails (inp : RoundInputs) (st : LogState) (e : UtilStatus) : Prop :=
  inp.nextSeqNum = .error e
  ∨ (∃ c, inp.nextSeqNum = .ok c ∧ ¬c < 0 ∧ inp.getMappingFault = some e)
  ∨ (∃ c t, inp.nextSeqNum = .ok c ∧ ¬c < 0 ∧ inp.getMappingFault = none
      ∧ buildSequencedHashes st.mapping = .ok t ∧ inp.pendingEntries = .error e)
  ∨ (∃ r, roundProcessed inp st = .ok r ∧ inp.servingSth = .error e)
  ∨ (∃ rz, roundChecked inp st = .ok rz ∧ inp.updateMappingFault = some e)

/-! Concrete instances used by the witnesses and counterexamples. -/

/-- A pending entry submitted one second before the example round. -/
def exEntryA : LoggedEntry := { hash := [1], timestamp := 99000, sequence_number := none }

/-- A pending entry submitted ten seconds before the example round. -/
def exEntryB : LoggedEntry := { hash := [2], timestamp := 90000, sequence_number := none }

/-- An old pending entry. -/
def exEntryC : LoggedEntry := { hash := [7], timestamp := 0, sequence_number := none }

/-- A pending entry one millisecond younger than `exEntryB`. -/
def exEntryD : LoggedEntry := { hash := [3], timestamp := 90001, sequence_number := none }

/-- Empty durable state. -/
def exStateEmpty : LogState := { mapping := [], db := [] }

/-- Round inputs for the guard-window example: guard window 5s, now T,
pending entries at T-1s and T-10s. -/
def exInputsGuard : RoundInputs :=
  { now := 100000, guardWindow := 5000, nextSeqNum := .ok 0, getMappingFault := none,
    pendingEntries := .ok [exEntryA, exEntryB], servingSth := .ok 0,
    updateMappingFault := none }

/-- The guard-window example rerun with a different (already consumed)
counter value. -/
def exInputsGuardAgain : RoundInputs :=
  { now := 100000, guardWindow := 5000, nextSeqNum := .ok 7, getMappingFault := none,
    pendingEntries := .ok [exEntryA, exEntryB], servingSth := .ok 0,
    updateMappingFault := none }

/-- Result of the pending pass of the guard-window example. -/
def exProcGuard : ProcState :=
  { newMapping := [⟨[2], 0⟩],
    seqToEntry := [(0, { hash := [2], timestamp := 90000, sequence_number := some 0 })],
    table := [], next := 1, numSequenced := 1 }

/-- Round inputs whose next available sequence number (1) is ahead of the
local tree size (0): the one old pending entry is assigned sequence number 1,
yet `seq_to_entry.find(TreeSize())` finds no entry with key 0. -/
def exInputsFind : RoundInputs :=
  { now := 100000, guardWindow := 5000, nextSeqNum := .ok 1, getMappingFault := none,
    pendingEntries := .ok [exEntryC], servingSth := .ok 5, updateMappingFault := none }

/-- Result of the pending pass of the `exInputsFind` round. -/
def exProcFind : ProcState :=
  { newMapping := [⟨[7], 1⟩],
    seqToEntry := [(1, { hash := [7], timestamp := 0, sequence_number := some 1 })],
    table := [], next := 2, numSequenced := 1 }

/-- The same round with the counter at 0, so the assigned sequence number
matches the local tree size and the entry is inserted. -/
def exInputsFindOk : RoundInputs :=
  { now := 100000, guardWindow := 5000, nextSeqNum := .ok 0, getMappingFault := none,
    pendingEntries := .ok [exEntryC], servingSth := .ok 5, updateMappingFault := none }

/-- Result of the pending pass of the `exInputsFindOk` round. -/
def exProcFindOk : ProcState :=
  { newMapping := [⟨[7], 0⟩],
    seqToEntry := [(0, { hash := [7], timestamp := 0, sequence_number := some 0 })],
    table := [], next := 1, numSequenced := 1 }

/-- Round inputs for the vanished-mapping example: serving tree size 100, no
pending entries. -/
def exInputsServing : RoundInputs :=
  { now := 100000, guardWindow := 5000, nextSeqNum := .ok 200, getMappingFault := none,
    pendingEntries := .ok [], servingSth := .ok 100, updateMappingFault := none }

/-- State whose only mapping row (sequence 50) is underwater. -/
def exStateVanishedLow : LogState := { mapping := [⟨[9], 50⟩], db := [] }

/-- State whose only mapping row (sequence 150) is above the serving size. -/
def exStateVanishedHigh : LogState := { mapping := [⟨[9], 150⟩], db := [] }

/-- Result of the pending pass of the `exStateVanishedHigh` round. -/
def exProcVanishedHigh : ProcState :=
  { newMapping := [], seqToEntry := [], table := [([9], 150, false)], next := 200,
    numSequenced := 0 }

/-- Round inputs for the ordering example: two old pending entries with
timestamps 90001 and 90000. -/
def exInputsOrder : RoundInputs :=
  { now := 100000, guardWindow := 5000, nextSeqNum := .ok 0, getMappingFault := none,
    pendingEntries := .ok [exEntryD, exEntryB], servingSth := .ok 0,
    updateMappingFault := none }

/-- Round inputs whose very first consistent-store call fails. -/
def exInputsFail : RoundInputs :=
  { now := 100000, guardWindow := 5000, nextSeqNum := .error ⟨3⟩, getMappingFault := none,
    pendingEntries := .ok [], servingSth := .ok 0, updateMappingFault := none }

/-- A sequenced entry with sequence number `n`. -/
def exEntryN (n : Nat) : LoggedEntry :=
  { hash := [n], timestamp := n, sequence_number := some (Int.ofNat n) }

/-- A local database holding sequenced entries {0, 1, 2, 4} (gap at 3). -/
def exDbGap : Db := [(0, exEntryN 0), (1, exEntryN 1), (2, exEntryN 2), (4, exEntryN 4)]

/-- A previously published tree head with timestamp 10. -/
def exSth0 : SignedTreeHead :=
  { version := 1, sha256_root_hash := [], timestamp := 10, tree_size := 0,
    signed_ok := true }

/-- Tree signer state with an empty tree and `exSth0` as the latest head. -/
def exTreeState0 : TreeSignerState := { leaves := [], latestTreeHead := exSth0 }

/-- The tree signer state after running `UpdateTree` on `exDbGap` from
`exTreeState0` at clock reading 5. -/
def exTreeAfterGap : TreeSignerState :=
  { leaves := [exEntryN 0, exEntryN 1, exEntryN 2],
    latestTreeHead :=
      { version := 1, sha256_root_hash := [exEntryN 0, exEntryN 1, exEntryN 2],
        timestamp := 11, tree_size := 3, signed_ok := true } }

/-- Tree signer state after `UpdateTree` on an empty database from
`exTreeState0` at clock reading 5 (clamped up to 11). -/
def exTreeAfterEmpty : TreeSignerState :=
  { leaves := [],
    latestTreeHead := { version := 1, sha256_root_hash := [], timestamp := 11,
                        tree_size := 0, signed_ok := true } }

/-- Tree signer state after a second `UpdateTree` on an empty database at
clock reading 0 (clamped up to 12). -/
def exTreeAfterEmpty2 : TreeSignerState :=
  { leaves := [],
    latestTreeHead := { version := 1, sha256_root_hash := [], timestamp := 12,
                        tree_size := 0, signed_ok := true } }

/-- Result of the pending pass of the ordering example. -/
def exProcOrder : ProcState :=
  { newMapping := [⟨[2], 0⟩, ⟨[3], 1⟩],
    seqToEntry := [(0, { hash := [2], timestamp := 90000, sequence_number := some 0 }),
                   (1, { hash := [3], timestamp := 90001, sequence_number := some 1 })],
    table := [], next := 2, numSequenced := 2 }

/-! Basic lemmas about the comparator and the sorts. -/

theorem hashLt_irrefl (a : List Nat) : hashLt a a = false := by
  induction a with
  | nil => rfl
  | cons x xs ih => simp [hashLt, ih]

theorem hashLt_cons_iff {x y : Nat} {xs ys : List Nat} :
    hashLt (x :: xs) (y :: ys) = true ↔ (x < y ∨ (x = y ∧ hashLt xs ys = true)) := by
  simp only [hashLt]
  split_ifs with h1 h2
  · simp [h1]
  · simp only [Bool.false_eq_true, false_iff]
    rintro (h | ⟨h, _⟩) <;> omega
  · have hxy : x = y := by omega
    subst hxy
    simp

theorem hashLt_trans : ∀ {a b c : List Nat},
    hashLt a b = true → hashLt b c = true → hashLt a c = true
  | [], [], _, hab, _ => by simp [hashLt] at hab
  | [], _ :: _, [], _, hbc => by simp [hashLt] at hbc
  | [], _ :: _, _ :: _, _, _ => rfl
  | _ :: _, [], _, hab, _ => by simp [hashLt] at hab
  | _ :: _, _ :: _, [], _, hbc => by simp [hashLt] at hbc
  | x :: xs, y :: ys, z :: zs, hab, hbc => by
    rw [hashLt_cons_iff] at hab hbc ⊢
    rcases hab with h | ⟨hxy, h⟩
    · rcases hbc with h2 | ⟨hyz, h2⟩
      · exact Or.inl (Nat.lt_trans h h2)
      · exact Or.inl (hyz ▸ h)
    · rcases hbc with h2 | ⟨hyz, h2⟩
      · exact Or.inl (hxy ▸ h2)
      · exact Or.inr ⟨hxy.trans hyz, hashLt_trans h h2⟩

theorem hashLt_asymm {a b : List Nat} (h : hashLt a b = true) : hashLt b a = false := by
  cases hx : hashLt b a with
  | false => rfl
  | true =>
    have := hashLt_trans h hx
    rw [hashLt_irrefl] at this
    cases this

theorem hashLt_connex : ∀ {a b : List Nat},
    hashLt a b = false → hashLt b a = false → a = b
  | [], [], _, _ => rfl
  | [], _ :: _, hab, _ => by simp [hashLt] at hab
  | _ :: _, [], _, hba => by simp [hashLt] at hba
  | x :: xs, y :: ys, hab, hba => by
    have hx : ¬(x < y ∨ (x = y ∧ hashLt xs ys = true)) := fun h => by
      have := hashLt_cons_iff.mpr h
      rw [hab] at this
      cases this
    have hy : ¬(y < x ∨ (y = x ∧ hashLt ys xs = true)) := fun h => by
      have := hashLt_cons_iff.mpr h
      rw [hba] at this
      cases this
    push_neg at hx hy
    have hxy : x = y := by omega
    subst hxy
    have h1 : hashLt xs ys = false := by
      cases h : hashLt xs ys with
      | false => rfl
      | true => exact absurd h (hx.2 rfl)
    have h2 : hashLt ys xs = false := by
      cases h : hashLt ys xs with
      | false => rfl
      | true => exact absurd h (hy.2 rfl)
    rw [hashLt_connex h1 h2]

theorem pendingEntriesOrder_iff {x y : LoggedEntry} :
    pendingEntriesOrder x y = true ↔
      (x.timestamp < y.timestamp ∨
        (x.timestamp = y.timestamp ∧ hashLt x.hash y.hash = true)) := by
  simp only [pendingEntriesOrder]
  split_ifs with h1 h2
  · simp [h1]
  · simp only [Bool.false_eq_true, false_iff]
    rintro (h | ⟨h, _⟩) <;> omega
  · have hts : x.timestamp = y.timestamp := by omega
    simp [hts]

theorem peo_trans {x y z : LoggedEntry} (hxy : pendingEntriesOrder x y = true)
    (hyz : pendingEntriesOrder y z = true) : pendingEntriesOrder x z = true := by
  rw [pendingEntriesOrder_iff] at hxy hyz ⊢
  rcases hxy with h | ⟨he, h⟩
  · rcases hyz with h2 | ⟨he2, h2⟩
    · exact Or.inl (Nat.lt_trans h h2)
    · exact Or.inl (he2 ▸ h)
  · rcases hyz with h2 | ⟨he2, h2⟩
    · exact Or.inl (he ▸ h2)
    · exact Or.inr ⟨he.trans he2, hashLt_trans h h2⟩

theorem peo_asymm {x y : LoggedEntry} (h : pendingEntriesOrder x y = true) :
    pendingEntriesOrder y x = false := by
  cases hx : pendingEntriesOrder y x with
  | false => rfl
  | true =>
    rw [pendingEntriesOrder_iff] at h hx
    rcases h with h | ⟨he, h⟩ <;> rcases hx with h2 | ⟨he2, h2⟩
    · omega
    · omega
    · omega
    · have := hashLt_asymm h
      rw [h2] at this
      cases this

theorem peo_irrefl (x : LoggedEntry) : pendingEntriesOrder x x = false := by
  simp [pendingEntriesOrder, hashLt_irrefl]

theorem insertPending_perm (e : LoggedEntry) (l : List LoggedEntry) :
    (insertPending e l).Perm (e :: l) := by
  induction l with
  | nil => exact List.Perm.refl _
  | cons g r ih =>
    simp only [insertPending]
    split_ifs with h
    · exact List.Perm.refl _
    · exact (List.Perm.cons g ih).trans (List.Perm.swap e g r)

theorem sortPending_perm (l : List LoggedEntry) : (sortPending l).Perm l := by
  induction l with
  | nil => exact List.Perm.refl _
  | cons e r ih =>
    exact (insertPending_perm e (sortPending r)).trans (List.Perm.cons e ih)

theorem mem_insertPending {x e : LoggedEntry} {l : List LoggedEntry}
    (h : x ∈ insertPending e l) : x = e ∨ x ∈ l := by
  have := (insertPending_perm e l).mem_iff.mp h
  simpa using this

theorem insertPending_sorted {e : LoggedEntry} {l : List LoggedEntry}
    (h : l.Pairwise (fun x y => pendingEntriesOrder y x = false)) :
    (insertPending e l).Pairwise (fun x y => pendingEntriesOrder y x = false) := by
  induction l with
  | nil => simp [insertPending]
  | cons g r ih =>
    rw [List.pairwise_cons] at h
    obtain ⟨hg, hr⟩ := h
    simp only [insertPending]
    split_ifs with hlt
    · refine List.pairwise_cons.mpr ⟨?_, List.pairwise_cons.mpr ⟨hg, hr⟩⟩
      intro w hw
      rcases List.mem_cons.mp hw with rfl | hw
      · exact peo_asymm hlt
      · cases hx : pendingEntriesOrder w e with
        | false => rfl
        | true =>
          have hcontra : pendingEntriesOrder w g = true := peo_trans hx hlt
          rw [hg w hw] at hcontra
          cases hcontra
    · refine List.pairwise_cons.mpr ⟨?_, ih hr⟩
      intro w hw
      rcases mem_insertPending hw with rfl | hw
      · cases hx : pendingEntriesOrder w g with
        | false => rfl
        | true => exact absurd hx (by simp [hlt])
      · exact hg w hw

theorem sortPending_sorted (l : List LoggedEntry) :
    (sortPending l).Pairwise (fun x y => pendingEntriesOrder y x = false) := by
  induction l with
  | nil => simp [sortPending]
  | cons e r ih => exact insertPending_sorted ih

/-! Lemmas about the `sequenced_hashes` table and mapping-row lookups. -/

theorem lookupTable_eq_none_iff {t : SeqTable} {h : List Nat} :
    lookupTable t h = none ↔ h ∉ t.map (fun r => r.1) := by
  induction t with
  | nil => simp [lookupTable]
  | cons row r ih =>
    obtain ⟨h1, v1⟩ := row
    simp only [lookupTable, List.map_cons, List.mem_cons]
    split_ifs with he
    · subst he
      simp
    · simp only [ih]
      constructor
      · intro hn
        rintro (rfl | hm)
        · exact he rfl
        · exact hn hm
      · intro hn hm
        exact hn (Or.inr hm)

theorem markPresent_map_fst (t : SeqTable) (h : List Nat) :
    (markPresent t h).map (fun r => r.1) = t.map (fun r => r.1) := by
  induction t with
  | nil => rfl
  | cons row r ih =>
    obtain ⟨h1, s1, p1⟩ := row
    simp only [markPresent]
    split_ifs with he
    · simp [he]
    · simp [ih]

theorem lookupTable_markPresent_ne {t : SeqTable} {h0 h : List Nat} (hne : h ≠ h0) :
    lookupTable (markPresent t h0) h = lookupTable t h := by
  induction t with
  | nil => rfl
  | cons row r ih =>
    obtain ⟨h1, s1, p1⟩ := row
    simp only [markPresent]
    split_ifs with he
    · subst he
      simp only [lookupTable]
      split_ifs with he2
      · exact absurd he2.symm hne
      · rfl
    · simp only [lookupTable]
      split_ifs with he2
      · rfl
      · exact ih

theorem mem_markPresent {t : SeqTable} {h0 : List Nat} {row : List Nat × Int × Bool}
    (hn : (t.map (fun r => r.1)).Nodup) (hm : row ∈ markPresent t h0) :
    row.2.2 = true ∨ (row ∈ t ∧ row.1 ≠ h0) := by
  induction t with
  | nil => cases hm
  | cons hd r ih =>
    obtain ⟨h1, s1, p1⟩ := hd
    simp only [List.map_cons, List.nodup_cons] at hn
    obtain ⟨hnotin, hnod⟩ := hn
    simp only [markPresent] at hm
    split_ifs at hm with he
    · subst he
      rcases List.mem_cons.mp hm with rfl | hm2
      · exact Or.inl rfl
      · right
        refine ⟨List.mem_cons_of_mem _ hm2, ?_⟩
        intro hrow
        exact hnotin (hrow ▸ List.mem_map_of_mem (fun r => r.1) hm2)
    · rcases List.mem_cons.mp hm with rfl | hm2
      · exact Or.inr ⟨List.mem_cons_self _ _, he⟩
      · rcases ih hnod hm2 with hp | ⟨hmem, hne⟩
        · exact Or.inl hp
        · exact Or.inr ⟨List.mem_cons_of_mem _ hmem, hne⟩

theorem insertSeqToEntry_perm {k : Int} {v : LoggedEntry}
    {l l' : List (Int × LoggedEntry)} (h : insertSeqToEntry k v l = .ok l') :
    l'.Perm ((k, v) :: l) := by
  induction l generalizing l' with
  | nil =>
    simp only [insertSeqToEntry] at h
    cases h
    exact List.Perm.refl _
  | cons hd r ih =>
    obtain ⟨k1, v1⟩ := hd
    simp only [insertSeqToEntry] at h
    split_ifs at h with he hlt
    · cases h
      exact List.Perm.refl _
    · cases hr : insertSeqToEntry k v r with
      | error err => rw [hr] at h; cases h
      | ok r1 =>
        rw [hr] at h
        simp only [Except.map] at h
        cases h
        exact (List.Perm.cons (k1, v1) (ih hr)).trans (List.Perm.swap (k, v) (k1, v1) r)

theorem assocSeq_eq_none_iff {m : List MappingEntry} {h : List Nat} :
    assocSeq m h = none ↔ h ∉ m.map MappingEntry.entry_hash := by
  induction m with
  | nil => simp [assocSeq]
  | cons hd r ih =>
    simp only [assocSeq, List.map_cons, List.mem_cons]
    split_ifs with he
    · subst he
      simp
    · simp only [ih]
      constructor
      · intro hn
        rintro (rfl | hm)
        · exact he rfl
        · exact hn hm
      · intro hn hm
        exact hn (Or.inr hm)

theorem mem_of_assocSeq_some {m : List MappingEntry} {h : List Nat} {v : Int}
    (hs : assocSeq m h = some v) : (⟨h, v⟩ : MappingEntry) ∈ m := by
  induction m with
  | nil => cases hs
  | cons hd r ih =>
    simp only [assocSeq] at hs
    split_ifs at hs with he
    · cases hs
      rw [← he]
      exact List.mem_cons_self _ _
    · exact List.mem_cons_of_mem _ (ih hs)

theorem assocSeq_eq_some_of_mem {m : List MappingEntry} {h : List Nat} {v : Int}
    (hn : (m.map MappingEntry.entry_hash).Nodup)
    (hm : (⟨h, v⟩ : MappingEntry) ∈ m) : assocSeq m h = some v := by
  induction m with
  | nil => cases hm
  | cons hd r ih =>
    simp only [List.map_cons, List.nodup_cons] at hn
    obtain ⟨hnotin, hnod⟩ := hn
    simp only [assocSeq]
    rcases List.mem_cons.mp hm with rfl | hm2
    · simp
    · split_ifs with he
      · exact absurd (he ▸ List.mem_map_of_mem MappingEntry.entry_hash hm2)
          (by simpa using hnotin)
      · exact ih hnod hm2

theorem mappingEntry_seq_unique {m : List MappingEntry} {h : List Nat} {a b : Int}
    (hn : (m.map MappingEntry.entry_hash).Nodup)
    (ha : (⟨h, a⟩ : MappingEntry) ∈ m) (hb : (⟨h, b⟩ : MappingEntry) ∈ m) : a = b := by
  have h1 := assocSeq_eq_some_of_mem hn ha
  have h2 := assocSeq_eq_some_of_mem hn hb
  rw [h1] at h2
  cases h2
  rfl

theorem assocSeq_eq_of_perm {m1 m2 : List MappingEntry}
    (hp : m1.Perm m2) (hn : (m1.map MappingEntry.entry_hash).Nodup) (h : List Nat) :
    assocSeq m1 h = assocSeq m2 h := by
  have hn2 : (m2.map MappingEntry.entry_hash).Nodup :=
    (hp.map MappingEntry.entry_hash).nodup_iff.mp hn
  cases hs : assocSeq m1 h with
  | some v =>
    exact (assocSeq_eq_some_of_mem hn2 (hp.mem_iff.mp (mem_of_assocSeq_some hs))).symm
  | none =>
    rw [assocSeq_eq_none_iff] at hs
    have : h ∉ m2.map MappingEntry.entry_hash := fun hm =>
      hs ((hp.map MappingEntry.entry_hash).mem_iff.mpr hm)
    exact (assocSeq_eq_none_iff.mpr this).symm

theorem lookupTable_mappingRows (m : List MappingEntry) (h : List Nat) :
    lookupTable (m.map mappingRow) h = (assocSeq m h).map (fun v => (v, false)) := by
  induction m with
  | nil => rfl
  | cons hd r ih =>
    simp only [List.map_cons, lookupTable, assocSeq, mappingRow]
    split_ifs with he
    · rfl
    · exact ih

theorem buildSequencedHashesAux_ok_inv :
    ∀ {mapping : List MappingEntry} {acc t : SeqTable},
    buildSequencedHashesAux acc mapping = .ok t →
    t = acc ++ mapping.map mappingRow
      ∧ (∀ h ∈ mapping.map MappingEntry.entry_hash, h ∉ acc.map (fun r => r.1))
      ∧ (mapping.map MappingEntry.entry_hash).Nodup := by
  intro mapping
  induction mapping with
  | nil =>
    intro acc t h
    simp only [buildSequencedHashesAux] at h
    cases h
    simp
  | cons m rest ih =>
    intro acc t h
    simp only [buildSequencedHashesAux] at h
    split_ifs at h with hs
    · have hnone : lookupTable acc m.entry_hash = none := by
        cases hl : lookupTable acc m.entry_hash with
        | none => rfl
        | some v => rw [hl] at hs; simp at hs
      have hnotin : m.entry_hash ∉ acc.map (fun r => r.1) :=
        lookupTable_eq_none_iff.mp hnone
      obtain ⟨ht, hdisj, hnod⟩ := ih h
      have hrow : (acc ++ [(m.entry_hash, m.sequence_number, false)]).map (fun r => r.1)
          = acc.map (fun r => r.1) ++ [m.entry_hash] := by simp
      refine ⟨?_, ?_, ?_⟩
      · rw [ht, List.append_assoc]
        simp [mappingRow]
      · intro h2 hmem
        simp only [List.map_cons, List.mem_cons] at hmem
        rcases hmem with rfl | hmem2
        · exact hnotin
        · intro hacc
          exact hdisj h2 hmem2 (by rw [hrow]; exact List.mem_append_left _ hacc)
      · simp only [List.map_cons, List.nodup_cons]
        refine ⟨?_, hnod⟩
        intro hmem
        have := hdisj m.entry_hash hmem
        rw [hrow] at this
        exact this (List.mem_append_right _ (by simp))

theorem buildSequencedHashes_inv {mapping : List MappingEntry} {t : SeqTable}
    (h : buildSequencedHashes mapping = .ok t) :
    t = mapping.map mappingRow ∧ (mapping.map MappingEntry.entry_hash).Nodup := by
  obtain ⟨ht, _, hnod⟩ := buildSequencedHashesAux_ok_inv h
  simpa using ⟨ht, hnod⟩

theorem buildSequencedHashesAux_ok :
    ∀ {mapping : List MappingEntry} {acc : SeqTable},
    (acc.map (fun r => r.1) ++ mapping.map MappingEntry.entry_hash).Nodup →
    buildSequencedHashesAux acc mapping = .ok (acc ++ mapping.map mappingRow) := by
  intro mapping
  induction mapping with
  | nil =>
    intro acc _
    simp [buildSequencedHashesAux]
  | cons m rest ih =>
    intro acc hn
    have hnotin : m.entry_hash ∉ acc.map (fun r => r.1) := by
      intro hacc
      have h1 : (m.entry_hash :: (acc.map (fun r => r.1)
          ++ rest.map MappingEntry.entry_hash)).Nodup :=
        List.nodup_middle.mp (by simpa using hn)
      exact (List.nodup_cons.mp h1).1 (List.mem_append_left _ hacc)
    have hnone : lookupTable acc m.entry_hash = none := lookupTable_eq_none_iff.mpr hnotin
    simp only [buildSequencedHashesAux, hnone, Option.isSome_none, Bool.false_eq_true,
      if_false]
    have hn2 : ((acc ++ [(m.entry_hash, m.sequence_number, false)]).map (fun r => r.1)
        ++ rest.map MappingEntry.entry_hash).Nodup := by
      simp only [List.map_append, List.map_cons, List.map_nil, List.append_assoc,
        List.singleton_append]
      simpa using hn
    have := ih hn2
    rw [this]
    simp [mappingRow, List.append_assoc]

theorem buildSequencedHashes_ok {mapping : List MappingEntry}
    (hn : (mapping.map MappingEntry.entry_hash).Nodup) :
    buildSequencedHashes mapping = .ok (mapping.map mappingRow) := by
  have := @buildSequencedHashesAux_ok mapping [] (by simpa using hn)
  simpa using this

theorem insertMappingBySeq_perm (m : MappingEntry) (l : List MappingEntry) :
    (insertMappingBySeq m l).Perm (m :: l) := by
  induction l with
  | nil => exact List.Perm.refl _
  | cons g r ih =>
    simp only [insertMappingBySeq]
    split_ifs with h
    · exact List.Perm.refl _
    · exact (List.Perm.cons g ih).trans (List.Perm.swap m g r)

theorem sortMappingBySeq_perm (l : List MappingEntry) : (sortMappingBySeq l).Perm l := by
  induction l with
  | nil => exact List.Perm.refl _
  | cons m r ih =>
    exact (insertMappingBySeq_perm m (sortMappingBySeq r)).trans (List.Perm.cons m ih)

theorem servingCheckVanished_ok_forall {t : SeqTable} {z : Int}
    (h : servingCheckVanished t z = .ok ()) :
    ∀ row ∈ t, row.2.2 = false → row.2.1 < z := by
  induction t with
  | nil => intro row hr; cases hr
  | cons hd r ih =>
    obtain ⟨h1, s1, p1⟩ := hd
    simp only [servingCheckVanished] at h
    split_ifs at h with hc
    intro row hr hp
    rcases List.mem_cons.mp hr with rfl | hr2
    · simp only at hp
      subst hp
      simp only [Bool.not_false, true_and, not_lt] at hc
      push_neg at hc
      simpa using hc
    · exact ih h row hr2 hp

theorem servingCheckVanished_error_of_violation {t : SeqTable} {z : Int}
    (h : ∃ row ∈ t, row.2.2 = false ∧ z ≤ row.2.1) :
    servingCheckVanished t z = .error (.fatal "vanished mapping at or above serving tree size") := by
  induction t with
  | nil => obtain ⟨row, hr, _⟩ := h; cases hr
  | cons hd r ih =>
    obtain ⟨h1, s1, p1⟩ := hd
    simp only [servingCheckVanished]
    split_ifs with hc
    · rfl
    · apply ih
      obtain ⟨row, hr, hp, hz⟩ := h
      rcases List.mem_cons.mp hr with rfl | hr2
      · exfalso
        apply hc
        simp only at hp
        subst hp
        simp only [Bool.not_false, true_and, not_lt]
        simpa using hz
      · exact ⟨row, hr2, hp, hz⟩

theorem servingCheckVanished_ok_of_present {t : SeqTable} {z : Int}
    (h : ∀ row ∈ t, row.2.2 = true) : servingCheckVanished t z = .ok () := by
  induction t with
  | nil => rfl
  | cons hd r ih =>
    obtain ⟨h1, s1, p1⟩ := hd
    have hp : p1 = true := by simpa using h (h1, s1, p1) (List.mem_cons_self _ _)
    subst hp
    simp only [servingCheckVanished, Bool.not_true, false_and, if_false]
    exact ih (fun row hr => h row (List.mem_cons_of_mem _ hr))

theorem insertLocalEntries_ok :
    ∀ {l : List (Int × LoggedEntry)} {db db' : Db},
    insertLocalEntries db l = (none, db') → db' = db ++ l := by
  intro l
  induction l with
  | nil =>
    intro db db' h
    simp only [insertLocalEntries] at h
    cases h
    simp
  | cons hd rest ih =>
    intro db db' h
    obtain ⟨k, e⟩ := hd
    simp only [insertLocalEntries] at h
    split_ifs at h with hs
    · cases h
    · push_neg at hs
      rcases hc : createSequencedEntry db e with ⟨wr, db1⟩
      rw [hc] at h
      cases wr with
      | sequenceNumberAlreadyInUse => cases h
      | ok =>
        have hdb1 : db1 = db ++ [(k, e)] := by
          simp only [createSequencedEntry] at hc
          split_ifs at hc with hany
          · cases hc
          · cases hc
            simp [seqNumOrDefault, hs]
        rw [ih h, hdb1, List.append_assoc]
        rfl

/-! Inversion and constructor lemmas for the phases of `SequenceNewEntries`. -/

theorem roundProcessed_inv {inp : RoundInputs} {st : LogState} {r : ProcState}
    (h : roundProcessed inp st = .ok r) :
    ∃ c t pending, inp.nextSeqNum = .ok c ∧ ¬c < 0 ∧ inp.getMappingFault = none
      ∧ buildSequencedHashes st.mapping = .ok t ∧ inp.pendingEntries = .ok pending
      ∧ processPending inp.now inp.guardWindow (sortPending pending)
          { newMapping := [], seqToEntry := [], table := t, next := c, numSequenced := 0 }
          = .ok r := by
  unfold roundProcessed at h
  split at h
  · simp at h
  next c heq =>
    split_ifs at h with hneg
    split at h
    next s2 heq2 => simp at h
    next heq2 =>
      split at h
      next err heq3 => simp at h
      next t heq3 =>
        split at h
        next e2 heq4 => simp at h
        next pending heq4 =>
          exact ⟨c, t, pending, heq, hneg, heq2, heq3, heq4, h⟩

theorem roundProcessed_mk {inp : RoundInputs} {st : LogState} {c : Int} {t : SeqTable}
    {pending : List LoggedEntry} {r : ProcState}
    (hc : inp.nextSeqNum = .ok c) (hneg : ¬c < 0) (hmf : inp.getMappingFault = none)
    (ht : buildSequencedHashes st.mapping = .ok t) (hp : inp.pendingEntries = .ok pending)
    (hr : processPending inp.now inp.guardWindow (sortPending pending)
        { newMapping := [], seqToEntry := [], table := t, next := c, numSequenced := 0 }
        = .ok r) :
    roundProcessed inp st = .ok r := by
  unfold roundProcessed
  rw [hc]
  simp only [hneg, if_false]
  rw [hmf, ht, hp]
  exact hr

theorem roundChecked_inv {inp : RoundInputs} {st : LogState} {r : ProcState} {z : Int}
    (h : roundChecked inp st = .ok (r, z)) :
    roundProcessed inp st = .ok r ∧ getServingSize inp = .ok z
      ∧ servingCheckVanished r.table z = .ok ()
      ∧ lowestSeqCheck (sortMappingBySeq r.newMapping) z = .ok () := by
  unfold roundChecked at h
  split at h
  next err heq => simp at h
  next r1 heq =>
    split at h
    next err heq2 => simp at h
    next z1 heq2 =>
      split at h
      next err heq3 => simp at h
      next u heq3 =>
        split at h
        next err heq4 => simp at h
        next u2 heq4 =>
          cases h
          cases u
          cases u2
          exact ⟨heq, heq2, heq3, heq4⟩

theorem roundChecked_mk {inp : RoundInputs} {st : LogState} {r : ProcState} {z : Int}
    (hr : roundProcessed inp st = .ok r) (hz : getServingSize inp = .ok z)
    (hv : servingCheckVanished r.table z = .ok ())
    (hl : lowestSeqCheck (sortMappingBySeq r.newMapping) z = .ok ()) :
    roundChecked inp st = .ok (r, z) := by
  simp only [roundChecked, hr, hz, hv, hl]

theorem computedMapping_inv {inp : RoundInputs} {st : LogState} {m : List MappingEntry}
    (h : computedMapping inp st = .ok m) :
    ∃ r z, roundChecked inp st = .ok (r, z) ∧ m = sortMappingBySeq r.newMapping := by
  unfold computedMapping at h
  split at h
  next err heq => simp at h
  next r1 z1 heq =>
    cases h
    exact ⟨r1, z1, heq, rfl⟩

theorem computedMapping_mk {inp : RoundInputs} {st : LogState} {r : ProcState} {z : Int}
    (h : roundChecked inp st = .ok (r, z)) :
    computedMapping inp st = .ok (sortMappingBySeq r.newMapping) := by
  unfold computedMapping
  rw [h]

theorem SequenceNewEntries_of_checked_error {inp : RoundInputs} {st : LogState} {err : RErr}
    (h : roundChecked inp st = .error err) :
    SequenceNewEntries inp st = (toRoundResult err, st) := by
  unfold SequenceNewEntries
  rw [h]

theorem SequenceNewEntries_ok_inv {inp : RoundInputs} {st : LogState} {st' : LogState}
    (h : SequenceNewEntries inp st = (.ok, st')) :
    ∃ r z db1, roundChecked inp st = .ok (r, z) ∧ inp.updateMappingFault = none
      ∧ insertLocalEntries st.db (findTail (dbTreeSize st.db) r.seqToEntry) = (none, db1)
      ∧ st' = { mapping := sortMappingBySeq r.newMapping, db := db1 } := by
  unfold SequenceNewEntries at h
  split at h
  next err heq => cases err <;> simp [toRoundResult] at h
  next r z heq =>
    split at h
    next s heq2 => simp at h
    next heq2 =>
      dsimp only at h
      split at h
      next m db1 heq3 => simp at h
      next db1 heq3 =>
        simp only [Prod.mk.injEq] at h
        refine ⟨r, z, db1, heq, heq2, heq3, ?_⟩
        rw [← h.2]

/-! Lemmas about the pending-entry loop. -/

theorem processStep_inv {now guard : Int} {st : ProcState} {e : LoggedEntry} {st1 : ProcState}
    (h : processStep now guard st e = .ok st1) :
    (tooRecent now guard e = true ∧ st1 = st)
    ∨ (tooRecent now guard e = false ∧ lookupTable st.table e.hash = none
        ∧ ∃ s2e, insertSeqToEntry st.next { e with sequence_number := some st.next }
              st.seqToEntry = .ok s2e
          ∧ st1 = { newMapping := st.newMapping ++ [⟨e.hash, st.next⟩], seqToEntry := s2e,
                    table := st.table, next := st.next + 1,
                    numSequenced := st.numSequenced + 1 })
    ∨ (tooRecent now guard e = false
        ∧ (∃ s, lookupTable st.table e.hash = some (s, false)
            ∧ e.sequence_number = none
            ∧ ∃ s2e, insertSeqToEntry s { e with sequence_number := some s }
                  st.seqToEntry = .ok s2e
              ∧ st1 = { newMapping := st.newMapping ++ [⟨e.hash, s⟩], seqToEntry := s2e,
                        table := markPresent st.table e.hash, next := st.next,
                        numSequenced := st.numSequenced })) := by
  unfold processStep at h
  by_cases htr : tooRecent now guard e = true
  · rw [if_pos htr] at h
    cases h
    exact Or.inl ⟨htr, rfl⟩
  · have htr2 : tooRecent now guard e = false := by
      cases hb : tooRecent now guard e with
      | false => rfl
      | true => exact absurd hb htr
    rw [if_neg htr] at h
    cases hlook : lookupTable st.table e.hash with
    | none =>
      rw [hlook] at h
      rcases hins : insertSeqToEntry st.next { e with sequence_number := some st.next }
          st.seqToEntry with err | s2e
      · rw [hins] at h
        simp [Except.map] at h
      · rw [hins] at h
        simp only [Except.map] at h
        cases h
        exact Or.inr (Or.inl ⟨htr2, rfl, s2e, rfl, rfl⟩)
    | some vp =>
      obtain ⟨s, present⟩ := vp
      rw [hlook] at h
      cases present with
      | true =>
        simp at h
      | false =>
        simp only [Bool.false_eq_true, if_false] at h
        cases hsn : e.sequence_number with
        | some v =>
          rw [hsn] at h
          simp at h
        | none =>
          rw [hsn] at h
          simp only [Option.isSome_none, Bool.false_eq_true, if_false] at h
          rcases hins : insertSeqToEntry s { e with sequence_number := some s }
              st.seqToEntry with err | s2e
          · rw [hins] at h
            simp [Except.map] at h
          · rw [hins] at h
            simp only [Except.map] at h
            cases h
            exact Or.inr (Or.inr ⟨htr2, s, rfl, rfl, s2e, hins, rfl⟩)

theorem processStep_skip_eq {now guard : Int} {st : ProcState} {e : LoggedEntry}
    (htr : tooRecent now guard e = true) : processStep now guard st e = .ok st := by
  simp only [processStep, htr, if_true]

theorem processStep_reuse_eq {now guard : Int} {st : ProcState} {e : LoggedEntry} {s : Int}
    {s2e : List (Int × LoggedEntry)}
    (htr : tooRecent now guard e = false)
    (hlook : lookupTable st.table e.hash = some (s, false))
    (hsn : e.sequence_number = none)
    (hins : insertSeqToEntry s { e with sequence_number := some s } st.seqToEntry = .ok s2e) :
    processStep now guard st e = .ok
      { newMapping := st.newMapping ++ [⟨e.hash, s⟩], seqToEntry := s2e,
        table := markPresent st.table e.hash, next := st.next,
        numSequenced := st.numSequenced } := by
  simp only [processStep, htr, Bool.false_eq_true, if_false, hlook, hsn,
    Option.isSome_none, hins, Except.map]

theorem processPending_cons {now guard : Int} {e : LoggedEntry} {l : List LoggedEntry}
    {s : ProcState} : processPending now guard (e :: l) s
      = match processStep now guard s e with
        | .error err => .error err
        | .ok st1 => processPending now guard l st1 := rfl

theorem processPending_newMapping_prefix :
    ∀ {l : List LoggedEntry} {s r : ProcState} {now guard : Int},
    processPending now guard l s = .ok r → ∃ tl, r.newMapping = s.newMapping ++ tl := by
  intro l
  induction l with
  | nil =>
    intro s r now guard h
    simp only [processPending] at h
    cases h
    exact ⟨[], by simp⟩
  | cons e rest ih =>
    intro s r now guard h
    simp only [processPending] at h
    rcases hstep : processStep now guard s e with err | s1
    · rw [hstep] at h
      simp at h
    · rw [hstep] at h
      obtain ⟨tl, htl⟩ := ih h
      rcases processStep_inv hstep with ⟨htr, rfl⟩ | ⟨htr, hlook, s2e, hins, rfl⟩
        | ⟨htr, s0, hlook, hsn, s2e, hins, rfl⟩
      · exact ⟨tl, htl⟩
      · exact ⟨⟨e.hash, s.next⟩ :: tl, by rw [htl]; simp⟩
      · exact ⟨⟨e.hash, s0⟩ :: tl, by rw [htl]; simp⟩

theorem processPending_newMapping_hashes :
    ∀ {l : List LoggedEntry} {s r : ProcState} {now guard : Int},
    processPending now guard l s = .ok r →
    r.newMapping.map MappingEntry.entry_hash
      = s.newMapping.map MappingEntry.entry_hash
        ++ (l.filter (fun e => !tooRecent now guard e)).map LoggedEntry.hash := by
  intro l
  induction l with
  | nil =>
    intro s r now guard h
    simp only [processPending] at h
    cases h
    simp
  | cons e rest ih =>
    intro s r now guard h
    simp only [processPending] at h
    rcases hstep : processStep now guard s e with err | s1
    · rw [hstep] at h
      simp at h
    · rw [hstep] at h
      have hrec := ih h
      rcases processStep_inv hstep with ⟨htr, rfl⟩ | ⟨htr, hlook, s2e, hins, rfl⟩
        | ⟨htr, s0, hlook, hsn, s2e, hins, rfl⟩
      · rw [List.filter_cons_of_neg (by simp [htr])]
        exact hrec
      · rw [List.filter_cons_of_pos (by simp [htr])]
        rw [hrec]
        simp
      · rw [List.filter_cons_of_pos (by simp [htr])]
        rw [hrec]
        simp

theorem processPending_seqToEntry_hashes :
    ∀ {l : List LoggedEntry} {s r : ProcState} {now guard : Int},
    processPending now guard l s = .ok r →
    (r.seqToEntry.map (fun p => p.2.hash)).Perm
      (s.seqToEntry.map (fun p => p.2.hash)
        ++ (l.filter (fun e => !tooRecent now guard e)).map LoggedEntry.hash) := by
  intro l
  induction l with
  | nil =>
    intro s r now guard h
    simp only [processPending] at h
    cases h
    simp
  | cons e rest ih =>
    intro s r now guard h
    simp only [processPending] at h
    rcases hstep : processStep now guard s e with err | s1
    · rw [hstep] at h
      simp at h
    · rw [hstep] at h
      have hrec := ih h
      rcases processStep_inv hstep with ⟨htr, rfl⟩ | ⟨htr, hlook, s2e, hins, rfl⟩
        | ⟨htr, s0, hlook, hsn, s2e, hins, rfl⟩
      · rw [List.filter_cons_of_neg (by simp [htr])]
        exact hrec
      · rw [List.filter_cons_of_pos (by simp [htr])]
        refine hrec.trans ?_
        have hperm := insertSeqToEntry_perm hins
        have hmap := hperm.map (fun p => p.2.hash)
        refine (List.Perm.append_right _ hmap).trans ?_
        simp only [List.map_cons]
        exact List.perm_middle.symm
      · rw [List.filter_cons_of_pos (by simp [htr])]
        refine hrec.trans ?_
        have hperm := insertSeqToEntry_perm hins
        have hmap := hperm.map (fun p => p.2.hash)
        refine (List.Perm.append_right _ hmap).trans ?_
        simp only [List.map_cons]
        exact List.perm_middle.symm

theorem processPending_new_seq_ge :
    ∀ {l : List LoggedEntry} {s r : ProcState} {now guard : Int} {b : LoggedEntry} {sb : Int},
    processPending now guard l s = .ok r →
    (r.newMapping.map MappingEntry.entry_hash).Nodup →
    b ∈ l → tooRecent now guard b = false →
    lookupTable s.table b.hash = none →
    b.hash ∉ s.newMapping.map MappingEntry.entry_hash →
    (⟨b.hash, sb⟩ : MappingEntry) ∈ r.newMapping →
    s.next ≤ sb := by
  intro l
  induction l with
  | nil =>
    intro s r now guard b sb h _ hb
    cases hb
  | cons e rest ih =>
    intro s r now guard b sb h hnod hb htr hlook hacc hmem
    simp only [processPending] at h
    rcases hstep : processStep now guard s e with err | s1
    · rw [hstep] at h
      simp at h
    · rw [hstep] at h
      rcases processStep_inv hstep with ⟨htrE, rfl⟩ | ⟨htrE, hlookE, s2e, hins, rfl⟩
        | ⟨htrE, s0, hlookE, hsnE, s2e, hins, rfl⟩
      · rcases List.mem_cons.mp hb with rfl | hbrest
        · rw [htr] at htrE
          cases htrE
        · exact ih h hnod hbrest htr hlook hacc hmem
      · by_cases hbe : b.hash = e.hash
        · obtain ⟨tl, htl⟩ := processPending_newMapping_prefix h
          have hrowmem : (⟨e.hash, s.next⟩ : MappingEntry) ∈ r.newMapping := by
            rw [htl]
            simp
          have hsbeq : sb = s.next := mappingEntry_seq_unique hnod (hbe ▸ hmem) hrowmem
          omega
        · rcases List.mem_cons.mp hb with rfl | hbrest
          · exact absurd rfl hbe
          · have hacc1 : b.hash ∉ (s.newMapping
                ++ [(⟨e.hash, s.next⟩ : MappingEntry)]).map MappingEntry.entry_hash := by
              simp only [List.map_append, List.map_cons, List.map_nil, List.mem_append]
              rintro (hca | hcb)
              · exact hacc hca
              · simp only [List.mem_cons, List.not_mem_nil, or_false] at hcb
                exact hbe hcb
            have h1 : s.next + 1 ≤ sb := ih h hnod hbrest htr hlook hacc1 hmem
            omega
      · by_cases hbe : b.hash = e.hash
        · rw [hbe, hlookE] at hlook
          cases hlook
        · rcases List.mem_cons.mp hb with rfl | hbrest
          · exact absurd rfl hbe
          · have hlook1 : lookupTable (markPresent s.table e.hash) b.hash = none := by
              rw [lookupTable_markPresent_ne hbe]
              exact hlook
            have hacc1 : b.hash ∉ (s.newMapping
                ++ [(⟨e.hash, s0⟩ : MappingEntry)]).map MappingEntry.entry_hash := by
              simp only [List.map_append, List.map_cons, List.map_nil, List.mem_append]
              rintro (hca | hcb)
              · exact hacc hca
              · simp only [List.mem_cons, List.not_mem_nil, or_false] at hcb
                exact hbe hcb
            have h1 := ih h hnod hbrest htr hlook1 hacc1 hmem
            exact h1

theorem processPending_new_order :
    ∀ {l : List LoggedEntry} {s r : ProcState} {now guard : Int} {a b : LoggedEntry}
      {sa sb : Int},
    processPending now guard l s = .ok r →
    (r.newMapping.map MappingEntry.entry_hash).Nodup →
    l.Pairwise (fun x y => pendingEntriesOrder y x = false) →
    (l.map LoggedEntry.hash).Nodup →
    a ∈ l → b ∈ l →
    tooRecent now guard a = false → tooRecent now guard b = false →
    lookupTable s.table a.hash = none → lookupTable s.table b.hash = none →
    a.hash ∉ s.newMapping.map MappingEntry.entry_hash →
    b.hash ∉ s.newMapping.map MappingEntry.entry_hash →
    a.hash ≠ b.hash →
    pendingEntriesOrder a b = true →
    (⟨a.hash, sa⟩ : MappingEntry) ∈ r.newMapping →
    (⟨b.hash, sb⟩ : MappingEntry) ∈ r.newMapping →
    sa < sb := by
  intro l
  induction l with
  | nil =>
    intro s r now guard a b sa sb h _ _ _ ha
    cases ha
  | cons e rest ih =>
    intro s r now guard a b sa sb h hnod hsorted hlnod ha hb htra htrb hlooka hlookb
      hacca haccb hab horder hma hmb
    have hsorted2 := (List.pairwise_cons.mp hsorted).2
    have hhead := (List.pairwise_cons.mp hsorted).1
    have hlnod2 : (rest.map LoggedEntry.hash).Nodup := (List.nodup_cons.mp hlnod).2
    simp only [processPending] at h
    rcases hstep : processStep now guard s e with err | s1
    · rw [hstep] at h
      simp at h
    · rw [hstep] at h
      rcases processStep_inv hstep with ⟨htrE, rfl⟩ | ⟨htrE, hlookE, s2e, hins, rfl⟩
        | ⟨htrE, s0, hlookE, hsnE, s2e, hins, rfl⟩
      · -- head skipped this round
        rcases List.mem_cons.mp ha with rfl | harest
        · rw [htra] at htrE
          cases htrE
        · rcases List.mem_cons.mp hb with rfl | hbrest
          · rw [htrb] at htrE
            cases htrE
          · exact ih h hnod hsorted2 hlnod2 harest hbrest htra htrb hlooka hlookb
              hacca haccb hab horder hma hmb
      · -- head is newly assigned sequence number s.next
        by_cases hae : a.hash = e.hash
        · obtain ⟨tl, htl⟩ := processPending_newMapping_prefix h
          have hrowmem : (⟨e.hash, s.next⟩ : MappingEntry) ∈ r.newMapping := by
            rw [htl]
            simp
          have hsaeq : sa = s.next := mappingEntry_seq_unique hnod (hae ▸ hma) hrowmem
          have hbe : b.hash ≠ e.hash := fun hc => hab (hae.trans hc.symm)
          have hbrest : b ∈ rest := by
            rcases List.mem_cons.mp hb with rfl | hbrest
            · exact absurd hae.symm (by rw [← hae] at hbe; exact fun hc => hbe (hae ▸ rfl))
            · exact hbrest
          have haccb1 : b.hash ∉ (s.newMapping
              ++ [(⟨e.hash, s.next⟩ : MappingEntry)]).map MappingEntry.entry_hash := by
            simp only [List.map_append, List.map_cons, List.map_nil, List.mem_append]
            rintro (hca | hcb)
            · exact haccb hca
            · simp only [List.mem_cons, List.not_mem_nil, or_false] at hcb
              exact hbe hcb
          have h1 : s.next + 1 ≤ sb :=
            processPending_new_seq_ge h hnod hbrest htrb hlookb haccb1 hmb
          omega
        · by_cases hbe : b.hash = e.hash
          · -- b would have to be the head, contradicting the sort order
            have hbeq : b = e := List.inj_on_of_nodup_map hlnod hb
              (List.mem_cons_self _ _) hbe
            have harest : a ∈ rest := by
              rcases List.mem_cons.mp ha with rfl | harest
              · exact absurd rfl hae
              · exact harest
            have := hhead a harest
            rw [hbeq] at horder
            rw [horder] at this
            cases this
          · have harest : a ∈ rest := by
              rcases List.mem_cons.mp ha with rfl | harest
              · exact absurd rfl hae
              · exact harest
            have hbrest : b ∈ rest := by
              rcases List.mem_cons.mp hb with rfl | hbrest
              · exact absurd rfl hbe
              · exact hbrest
            have hacca1 : a.hash ∉ (s.newMapping
                ++ [(⟨e.hash, s.next⟩ : MappingEntry)]).map MappingEntry.entry_hash := by
              simp only [List.map_append, List.map_cons, List.map_nil, List.mem_append]
              rintro (hca | hcb)
              · exact hacca hca
              · simp only [List.mem_cons, List.not_mem_nil, or_false] at hcb
                exact hae hcb
            have haccb1 : b.hash ∉ (s.newMapping
                ++ [(⟨e.hash, s.next⟩ : MappingEntry)]).map MappingEntry.entry_hash := by
              simp only [List.map_append, List.map_cons, List.map_nil, List.mem_append]
              rintro (hca | hcb)
              · exact haccb hca
              · simp only [List.mem_cons, List.not_mem_nil, or_false] at hcb
                exact hbe hcb
            exact ih h hnod hsorted2 hlnod2 harest hbrest htra htrb hlooka hlookb
              hacca1 haccb1 hab horder hma hmb
      · -- head reuses a previously assigned sequence number
        by_cases hae : a.hash = e.hash
        · rw [hae, hlookE] at hlooka
          cases hlooka
        · by_cases hbe : b.hash = e.hash
          · rw [hbe, hlookE] at hlookb
            cases hlookb
          · have harest : a ∈ rest := by
              rcases List.mem_cons.mp ha with rfl | harest
              · exact absurd rfl hae
              · exact harest
            have hbrest : b ∈ rest := by
              rcases List.mem_cons.mp hb with rfl | hbrest
              · exact absurd rfl hbe
              · exact hbrest
            have hlooka1 : lookupTable (markPresent s.table e.hash) a.hash = none := by
              rw [lookupTable_markPresent_ne hae]
              exact hlooka
            have hlookb1 : lookupTable (markPresent s.table e.hash) b.hash = none := by
              rw [lookupTable_markPresent_ne hbe]
              exact hlookb
            have hacca1 : a.hash ∉ (s.newMapping
                ++ [(⟨e.hash, s0⟩ : MappingEntry)]).map MappingEntry.entry_hash := by
              simp only [List.map_append, List.map_cons, List.map_nil, List.mem_append]
              rintro (hca | hcb)
              · exact hacca hca
              · simp only [List.mem_cons, List.not_mem_nil, or_false] at hcb
                exact hae hcb
            have haccb1 : b.hash ∉ (s.newMapping
                ++ [(⟨e.hash, s0⟩ : MappingEntry)]).map MappingEntry.entry_hash := by
              simp only [List.map_append, List.map_cons, List.map_nil, List.mem_append]
              rintro (hca | hcb)
              · exact haccb hca
              · simp only [List.mem_cons, List.not_mem_nil, or_false] at hcb
                exact hbe hcb
            exact ih h hnod hsorted2 hlnod2 harest hbrest htra htrb hlooka1 hlookb1
              hacca1 haccb1 hab horder hma hmb

theorem processPending_rerun :
    ∀ {l : List LoggedEntry} {s1 s2 r1 : ProcState} {tl : List MappingEntry}
      {now guard now2 guard2 : Int},
    processPending now guard l s1 = .ok r1 →
    (∀ e ∈ l, tooRecent now2 guard2 e = tooRecent now guard e) →
    r1.newMapping = s1.newMapping ++ tl →
    ((l.filter (fun e => !tooRecent now guard e)).map LoggedEntry.hash).Nodup →
    (∀ e ∈ l, e.sequence_number = none) →
    s2.seqToEntry = s1.seqToEntry →
    (s2.table.map (fun row => row.1)).Nodup →
    (∀ e ∈ l, tooRecent now guard e = false →
        lookupTable s2.table e.hash = (assocSeq tl e.hash).map (fun v => (v, false))) →
    (∀ row ∈ s2.table, row.2.2 = true
        ∨ row.1 ∈ (l.filter (fun e => !tooRecent now guard e)).map LoggedEntry.hash) →
    ∃ r2, processPending now2 guard2 l s2 = .ok r2
      ∧ r2.newMapping = s2.newMapping ++ tl
      ∧ (∀ row ∈ r2.table, row.2.2 = true) := by
  intro l
  induction l with
  | nil =>
    intro s1 s2 r1 tl now guard now2 guard2 h hagree htl hfn hns hs2e htnod htb hcover
    simp only [processPending] at h
    cases h
    have htl0 : s1.newMapping ++ ([] : List MappingEntry) = s1.newMapping ++ tl := by
      simpa using htl
    have htlnil : tl = [] := (List.append_cancel_left htl0).symm
    refine ⟨s2, rfl, by simp [htlnil], ?_⟩
    intro row hrow
    rcases hcover row hrow with hp | hmem
    · exact hp
    · simp at hmem
  | cons e rest ih =>
    intro s1 s2 r1 tl now guard now2 guard2 h hagree htl hfn hns hs2e htnod htb hcover
    have hagreerest : ∀ e2 ∈ rest, tooRecent now2 guard2 e2 = tooRecent now guard e2 :=
      fun e2 he2 => hagree e2 (List.mem_cons_of_mem _ he2)
    have hagreehd : tooRecent now2 guard2 e = tooRecent now guard e :=
      hagree e (List.mem_cons_self _ _)
    simp only [processPending] at h
    rcases hstep : processStep now guard s1 e with err | s1'
    · rw [hstep] at h
      simp at h
    · rw [hstep] at h
      have hnsrest : ∀ e2 ∈ rest, e2.sequence_number = none :=
        fun e2 he2 => hns e2 (List.mem_cons_of_mem _ he2)
      rcases processStep_inv hstep with ⟨htrE, rfl⟩ | ⟨htrE, hlookE, s2e1, hins1, rfl⟩
        | ⟨htrE, s0, hlookE, hsnE, s2e1, hins1, rfl⟩
      · -- skipped in round one, skipped again in round two
        have hfilter : (e :: rest).filter (fun e2 => !tooRecent now guard e2)
            = rest.filter (fun e2 => !tooRecent now guard e2) :=
          List.filter_cons_of_neg (by simp [htrE])
        rw [hfilter] at hfn hcover
        have htbrest : ∀ e2 ∈ rest, tooRecent now guard e2 = false →
            lookupTable s2.table e2.hash = (assocSeq tl e2.hash).map (fun v => (v, false)) :=
          fun e2 he2 => htb e2 (List.mem_cons_of_mem _ he2)
        obtain ⟨r2, hr2, hnm2, hpres2⟩ := ih h hagreerest htl hfn hnsrest hs2e htnod
          htbrest hcover
        refine ⟨r2, ?_, hnm2, hpres2⟩
        rw [processPending_cons, processStep_skip_eq (hagreehd.trans htrE)]
        exact hr2
      · -- newly assigned k = s1.next in round one; round two reuses it from tl
        obtain ⟨tl2, htl2⟩ := processPending_newMapping_prefix h
        have htlcons : tl = ⟨e.hash, s1.next⟩ :: tl2 := by
          apply @List.append_cancel_left _ s1.newMapping
          rw [← htl, htl2]
          simp
        have hfilter : (e :: rest).filter (fun e2 => !tooRecent now guard e2)
            = e :: rest.filter (fun e2 => !tooRecent now guard e2) :=
          List.filter_cons_of_pos (by simp [htrE])
        rw [hfilter] at hfn hcover
        have henotin : e.hash ∉ (rest.filter
            (fun e2 => !tooRecent now guard e2)).map LoggedEntry.hash :=
          (List.nodup_cons.mp (by simpa using hfn)).1
        have hfnrest : ((rest.filter (fun e2 => !tooRecent now guard e2)).map
            LoggedEntry.hash).Nodup := (List.nodup_cons.mp (by simpa using hfn)).2
        -- round two processes the head by reusing sequence number s1.next
        have hlook2 : lookupTable s2.table e.hash = some (s1.next, false) := by
          rw [htb e (List.mem_cons_self _ _) htrE, htlcons]
          simp [assocSeq]
        have hins2 : insertSeqToEntry s1.next { e with sequence_number := some s1.next }
            s2.seqToEntry = .ok s2e1 := by
          rw [hs2e]
          exact hins1
        have htrE2 : tooRecent now2 guard2 e = false := hagreehd.trans htrE
        have hstep2 := processStep_reuse_eq htrE2 hlook2 (hns e (List.mem_cons_self _ _))
          hins2
        -- apply the induction hypothesis to the tails
        have htbrest : ∀ e2 ∈ rest, tooRecent now guard e2 = false →
            lookupTable (markPresent s2.table e.hash) e2.hash
              = (assocSeq tl2 e2.hash).map (fun v => (v, false)) := by
          intro e2 he2 htr2
          have hne : e2.hash ≠ e.hash := by
            intro hc
            apply henotin
            rw [← hc]
            exact List.mem_map_of_mem _ (List.mem_filter.mpr ⟨he2, by simp [htr2]⟩)
          rw [lookupTable_markPresent_ne hne, htb e2 (List.mem_cons_of_mem _ he2) htr2,
            htlcons]
          simp only [assocSeq]
          rw [if_neg (fun hc => hne hc.symm)]
        have hcover2 : ∀ row ∈ markPresent s2.table e.hash, row.2.2 = true
            ∨ row.1 ∈ (rest.filter (fun e2 => !tooRecent now guard e2)).map
                LoggedEntry.hash := by
          intro row hrow
          rcases mem_markPresent htnod hrow with hp | ⟨hmem, hne⟩
          · exact Or.inl hp
          · rcases hcover row hmem with hp | hmem2
            · exact Or.inl hp
            · rcases List.mem_cons.mp hmem2 with hc | hmem3
              · exact absurd hc hne
              · exact Or.inr hmem3
        have htnod2 : ((markPresent s2.table e.hash).map (fun row => row.1)).Nodup := by
          rw [markPresent_map_fst]
          exact htnod
        obtain ⟨r2, hr2, hnm2, hpres2⟩ := @ih
          { newMapping := s1.newMapping ++ [⟨e.hash, s1.next⟩], seqToEntry := s2e1,
            table := s1.table, next := s1.next + 1, numSequenced := s1.numSequenced + 1 }
          { newMapping := s2.newMapping ++ [⟨e.hash, s1.next⟩], seqToEntry := s2e1,
            table := markPresent s2.table e.hash, next := s2.next,
            numSequenced := s2.numSequenced }
          r1 tl2 now guard now2 guard2 h hagreerest htl2 hfnrest hnsrest rfl htnod2
          htbrest hcover2
        refine ⟨r2, ?_, ?_, hpres2⟩
        · rw [processPending_cons, hstep2]
          exact hr2
        · rw [hnm2, htlcons]
          simp
      · -- reuse of s0 in round one; round two reuses it from tl as well
        obtain ⟨tl2, htl2⟩ := processPending_newMapping_prefix h
        have htlcons : tl = ⟨e.hash, s0⟩ :: tl2 := by
          apply @List.append_cancel_left _ s1.newMapping
          rw [← htl, htl2]
          simp
        have hfilter : (e :: rest).filter (fun e2 => !tooRecent now guard e2)
            = e :: rest.filter (fun e2 => !tooRecent now guard e2) :=
          List.filter_cons_of_pos (by simp [htrE])
        rw [hfilter] at hfn hcover
        have henotin : e.hash ∉ (rest.filter
            (fun e2 => !tooRecent now guard e2)).map LoggedEntry.hash :=
          (List.nodup_cons.mp (by simpa using hfn)).1
        have hfnrest : ((rest.filter (fun e2 => !tooRecent now guard e2)).map
            LoggedEntry.hash).Nodup := (List.nodup_cons.mp (by simpa using hfn)).2
        have hlook2 : lookupTable s2.table e.hash = some (s0, false) := by
          rw [htb e (List.mem_cons_self _ _) htrE, htlcons]
          simp [assocSeq]
        have hins2 : insertSeqToEntry s0 { e with sequence_number := some s0 }
            s2.seqToEntry = .ok s2e1 := by
          rw [hs2e]
          exact hins1
        have htrE2 : tooRecent now2 guard2 e = false := hagreehd.trans htrE
        have hstep2 := processStep_reuse_eq htrE2 hlook2 (hns e (List.mem_cons_self _ _))
          hins2
        have htbrest : ∀ e2 ∈ rest, tooRecent now guard e2 = false →
            lookupTable (markPresent s2.table e.hash) e2.hash
              = (assocSeq tl2 e2.hash).map (fun v => (v, false)) := by
          intro e2 he2 htr2
          have hne : e2.hash ≠ e.hash := by
            intro hc
            apply henotin
            rw [← hc]
            exact List.mem_map_of_mem _ (List.mem_filter.mpr ⟨he2, by simp [htr2]⟩)
          rw [lookupTable_markPresent_ne hne, htb e2 (List.mem_cons_of_mem _ he2) htr2,
            htlcons]
          simp only [assocSeq]
          rw [if_neg (fun hc => hne hc.symm)]
        have hcover2 : ∀ row ∈ markPresent s2.table e.hash, row.2.2 = true
            ∨ row.1 ∈ (rest.filter (fun e2 => !tooRecent now guard e2)).map
                LoggedEntry.hash := by
          intro row hrow
          rcases mem_markPresent htnod hrow with hp | ⟨hmem, hne⟩
          · exact Or.inl hp
          · rcases hcover row hmem with hp | hmem2
            · exact Or.inl hp
            · rcases List.mem_cons.mp hmem2 with hc | hmem3
              · exact absurd hc hne
              · exact Or.inr hmem3
        have htnod2 : ((markPresent s2.table e.hash).map (fun row => row.1)).Nodup := by
          rw [markPresent_map_fst]
          exact htnod
        obtain ⟨r2, hr2, hnm2, hpres2⟩ := @ih
          { newMapping := s1.newMapping ++ [⟨e.hash, s0⟩], seqToEntry := s2e1,
            table := markPresent s1.table e.hash, next := s1.next,
            numSequenced := s1.numSequenced }
          { newMapping := s2.newMapping ++ [⟨e.hash, s0⟩], seqToEntry := s2e1,
            table := markPresent s2.table e.hash, next := s2.next,
            numSequenced := s2.numSequenced }
          r1 tl2 now guard now2 guard2 h hagreerest htl2 hfnrest hnsrest rfl htnod2
          htbrest hcover2
        refine ⟨r2, ?_, ?_, hpres2⟩
        · rw [processPending_cons, hstep2]
          exact hr2
        · rw [hnm2, htlcons]
          simp

/-! Lemmas about the tree builder and signer. -/

theorem updateTreeLoop_eq :
    ∀ (l : List (Int × LoggedEntry)) (i : Int) (leaves : List LoggedEntry) (minT : Nat),
    updateTreeLoop l i leaves minT
      = (leaves ++ takeSeqRun l i,
          List.foldl (fun m e => max m e.timestamp) minT (takeSeqRun l i)) := by
  intro l
  induction l with
  | nil =>
    intro i leaves minT
    simp [updateTreeLoop, takeSeqRun]
  | cons hd r ih =>
    intro i leaves minT
    obtain ⟨k, e⟩ := hd
    simp only [updateTreeLoop, takeSeqRun]
    split_ifs with hk
    · rw [ih]
      simp [AppendToTree, serializeForLeaf]
    · simp

theorem foldl_max_ge_init :
    ∀ (l : List LoggedEntry) (init : Nat),
    init ≤ List.foldl (fun m e => max m e.timestamp) init l := by
  intro l
  induction l with
  | nil => intro init; simp
  | cons e r ih =>
    intro init
    simp only [List.foldl_cons]
    exact le_trans (Nat.le_max_left _ _) (ih (max init e.timestamp))

theorem clamp_eq_max (clock m : Nat) : (if clock < m then m else clock) = max clock m := by
  rw [Nat.max_def]
  split_ifs <;> omega

theorem UpdateTree_ok_inv {clock : Nat} {signOk : Bool} {db : Db} {s s' : TreeSignerState}
    (h : UpdateTree clock signOk db s = .ok s') :
    s'.leaves = s.leaves
        ++ takeSeqRun (scanEntries db (Int.ofNat s.leaves.length)) (Int.ofNat s.leaves.length)
      ∧ LastUpdateTime s' = max clock (List.foldl (fun m e => max m e.timestamp)
          ((LastUpdateTime s + 1) % 2 ^ 64)
          (takeSeqRun (scanEntries db (Int.ofNat s.leaves.length))
            (Int.ofNat s.leaves.length)))
      ∧ s'.latestTreeHead.tree_size = s'.leaves.length
      ∧ s'.latestTreeHead.sha256_root_hash = currentRoot s'.leaves
      ∧ signOk = true := by
  unfold UpdateTree at h
  dsimp only at h
  rw [updateTreeLoop_eq] at h
  cases signOk with
  | false =>
    simp only [TimestampAndSign, Bool.false_eq_true, if_false] at h
    cases h
  | true =>
    simp only [TimestampAndSign, if_true] at h
    cases h
    refine ⟨rfl, ?_, rfl, rfl, rfl⟩
    simp only [LastUpdateTime]
    rw [clamp_eq_max]

theorem UpdateTree_strict_mono {clock : Nat} {signOk : Bool} {db : Db}
    {s s' : TreeSignerState} (h : UpdateTree clock signOk db s = .ok s')
    (hov : LastUpdateTime s + 1 < 2 ^ 64) :
    LastUpdateTime s < LastUpdateTime s' := by
  obtain ⟨_, hts, _⟩ := UpdateTree_ok_inv h
  have hmod : (LastUpdateTime s + 1) % 2 ^ 64 = LastUpdateTime s + 1 := Nat.mod_eq_of_lt hov
  rw [hts, hmod]
  have hge := foldl_max_ge_init
    (takeSeqRun (scanEntries db (Int.ofNat s.leaves.length)) (Int.ofNat s.leaves.length))
    (LastUpdateTime s + 1)
  exact lt_of_lt_of_le (Nat.lt_succ_self _) (le_trans hge (Nat.le_max_right _ _))

/-! Claim theorems. -/

/-- C8: when `TreeSigner::Append` receives a `SEQUENCE_NUMBER_ALREADY_IN_USE`
result from the database's `CreateSequencedEntry`, it returns false and the
in-memory Merkle tree is left unchanged (no leaf added, so leaf count and
root are unchanged); only when the database insert returns `OK` does it
append the serialized leaf and return true. -/
theorem C8_append_collision (logged : LoggedEntry) (leaves : List LoggedEntry) (db : Db)
    (hlen : leaves.length ≤ int64Max)
    (hseq : seqNumOrDefault logged = Int.ofNat leaves.length) :
    (Int.ofNat leaves.length ∈ db.map (fun p => p.1) →
      TreeSigner.Append logged leaves db = .ok (false, leaves, db))
    ∧ (Int.ofNat leaves.length ∉ db.map (fun p => p.1) →
      TreeSigner.Append logged leaves db
        = .ok (true, leaves ++ [serializeForLeaf logged],
            db ++ [(Int.ofNat leaves.length, logged)])) := by
  constructor
  · intro hmem
    have hany : db.any (fun p => p.1 = seqNumOrDefault logged) = true := by
      rw [List.any_eq_true]
      obtain ⟨p, hp, hp1⟩ := List.mem_map.mp hmem
      exact ⟨p, hp, by simp [hseq, hp1]⟩
    unfold TreeSigner.Append
    rw [if_neg (fun hc => hc hlen), if_neg (fun hc => hc hseq)]
    simp only [createSequencedEntry, hany, if_true]
  · intro hmem
    have hany : db.any (fun p => p.1 = seqNumOrDefault logged) = false := by
      rw [List.any_eq_false]
      intro p hp
      simp only [decide_eq_true_eq]
      intro hc
      exact hmem (List.mem_map.mpr ⟨p, hp, by rw [hc, hseq]⟩)
    unfold TreeSigner.Append
    rw [if_neg (fun hc => hc hlen), if_neg (fun hc => hc hseq)]
    simp only [createSequencedEntry, hany, Bool.false_eq_true, if_false]
    rw [hseq]

theorem C8_append_collision_witness :
    TreeSigner.Append (exEntryN 0) [] [(0, exEntryN 0)] = .ok (false, [], [(0, exEntryN 0)])
    ∧ TreeSigner.Append (exEntryN 0) [] [] = .ok (true, [exEntryN 0], [(0, exEntryN 0)]) := by
  constructor
  · exact (C8_append_collision (exEntryN 0) [] [(0, exEntryN 0)]
      (Nat.zero_le _) rfl).1 (by decide)
  · exact (C8_append_collision (exEntryN 0) [] []
      (Nat.zero_le _) rfl).2 (by decide)

/-- C9: if any consistent-store call reached during `SequenceNewEntries`
(`NextAvailableSequenceNumber`, `GetSequenceMapping`, `GetPendingEntries`,
`GetServingSTH` or `UpdateSequenceMapping`) returns a failure status, the
round returns that status to the caller and leaves the durable state — in
particular the stored sequence mapping — exactly as it was. -/
theorem C9_store_failure_propagation (inp : RoundInputs) (st : LogState) (e : UtilStatus)
    (h : storeCallFails inp st e) :
    SequenceNewEntries inp st = (.storeFail e, st) := by
  rcases h with h1 | ⟨c, hc, hneg, hmf⟩ | ⟨c, t, hc, hneg, hmf, ht, hp⟩
    | ⟨r, hr, hs⟩ | ⟨rz, hrz, hu⟩
  · have hchk : roundChecked inp st = .error (.store e) := by
      unfold roundChecked roundProcessed
      rw [h1]
    rw [SequenceNewEntries_of_checked_error hchk]
    rfl
  · have hchk : roundChecked inp st = .error (.store e) := by
      unfold roundChecked roundProcessed
      rw [hc]
      simp only [hneg, if_false]
      rw [hmf]
    rw [SequenceNewEntries_of_checked_error hchk]
    rfl
  · have hchk : roundChecked inp st = .error (.store e) := by
      unfold roundChecked roundProcessed
      rw [hc]
      simp only [hneg, if_false]
      rw [hmf, ht, hp]
    rw [SequenceNewEntries_of_checked_error hchk]
    rfl
  · have hchk : roundChecked inp st = .error (.store e) := by
      unfold roundChecked
      rw [hr]
      unfold getServingSize
      rw [hs]
    rw [SequenceNewEntries_of_checked_error hchk]
    rfl
  · obtain ⟨r, z⟩ := rz
    unfold SequenceNewEntries
    rw [hrz]
    simp only [hu]

theorem C9_store_failure_propagation_witness :
    SequenceNewEntries exInputsFail exStateEmpty = (.storeFail ⟨3⟩, exStateEmpty) :=
  C9_store_failure_propagation exInputsFail exStateEmpty ⟨3⟩ (Or.inl rfl)

/-- C4: with the serving STH fetched successfully, every previously mapped
hash whose pending entry vanished (present flag still false after the pass)
must sit strictly below the serving tree size for the round to succeed: a
vanished row at or above the serving size makes the round fatal with the
state untouched, and a succeeding round implies every vanished row was
underwater. -/
theorem C4_vanished_mapping (inp : RoundInputs) (st : LogState) (r : ProcState) (z : Int)
    (hr : roundProcessed inp st = .ok r) (hz : getServingSize inp = .ok z) :
    ((∃ row ∈ r.table, row.2.2 = false ∧ z ≤ row.2.1) →
      SequenceNewEntries inp st
        = (.fatal "vanished mapping at or above serving tree size", st))
    ∧ ((SequenceNewEntries inp st).1 = .ok →
      ∀ row ∈ r.table, row.2.2 = false → row.2.1 < z) := by
  constructor
  · intro hvio
    have hv := servingCheckVanished_error_of_violation hvio
    have hchk : roundChecked inp st
        = .error (.fatal "vanished mapping at or above serving tree size") := by
      simp only [roundChecked, hr, hz, hv]
    rw [SequenceNewEntries_of_checked_error hchk]
    rfl
  · intro hok
    have hfull : SequenceNewEntries inp st = (.ok, (SequenceNewEntries inp st).2) := by
      rw [← hok]
    obtain ⟨r1, z1, db1, hchk, _, _, _⟩ := SequenceNewEntries_ok_inv hfull
    obtain ⟨hr1, hz1, hv1, _⟩ := roundChecked_inv hchk
    rw [hr] at hr1
    cases hr1
    rw [hz] at hz1
    cases hz1
    exact servingCheckVanished_ok_forall hv1

theorem C4_vanished_mapping_witness :
    SequenceNewEntries exInputsServing exStateVanishedHigh
      = (.fatal "vanished mapping at or above serving tree size", exStateVanishedHigh)
    ∧ (SequenceNewEntries exInputsServing exStateVanishedLow).1 = .ok := by
  constructor
  · exact (C4_vanished_mapping exInputsServing exStateVanishedHigh exProcVanishedHigh 100
      rfl rfl).1 ⟨([9], 150, false), by decide, rfl, by decide⟩
  · rfl

/-- C1 counterexample: a round in which the counter (1) is ahead of the local
tree size (0) succeeds, processes its single old pending entry at sequence
number 1 ≥ TreeSize() = 0, and yet inserts nothing into the local database,
because `seq_to_entry.find(db_->TreeSize())` finds no row with key exactly 0
and the insertion loop therefore never starts. -/
theorem C1_counterexample :
    roundProcessed exInputsFind exStateEmpty = .ok exProcFind
    ∧ (1, { hash := [7], timestamp := 0, sequence_number := some 1 }) ∈ exProcFind.seqToEntry
    ∧ dbTreeSize exStateEmpty.db = 0
    ∧ SequenceNewEntries exInputsFind exStateEmpty
        = (.ok, { mapping := [⟨[7], 1⟩], db := [] })
    ∧ ¬(1, { hash := [7], timestamp := 0, sequence_number := some 1 })
        ∈ ({ mapping := [⟨[7], 1⟩], db := ([] : Db) } : LogState).db := by
  refine ⟨rfl, by decide, rfl, rfl, by decide⟩

/-- C1 (amended): after `SequenceNewEntries` succeeds, the local database has
gained exactly the suffix of the round's key-sorted `seq_to_entry` map
starting at the row whose key equals the database's `TreeSize()` at the start
of the insertion loop; when no processed entry has sequence number exactly
`TreeSize()`, no entry is inserted, even if entries with larger sequence
numbers were processed. The stored mapping becomes the freshly rebuilt one. -/
theorem C1_amended (inp : RoundInputs) (st : LogState) (st' : LogState) (r : ProcState)
    (h : SequenceNewEntries inp st = (.ok, st'))
    (hr : roundProcessed inp st = .ok r) :
    st'.db = st.db ++ findTail (dbTreeSize st.db) r.seqToEntry
    ∧ st'.mapping = sortMappingBySeq r.newMapping := by
  obtain ⟨r1, z1, db1, hchk, hupd, hins, hst'⟩ := SequenceNewEntries_ok_inv h
  have hr1 := (roundChecked_inv hchk).1
  rw [hr] at hr1
  cases hr1
  subst hst'
  exact ⟨insertLocalEntries_ok hins, rfl⟩

theorem C1_amended_witness :
    SequenceNewEntries exInputsFindOk exStateEmpty
      = (.ok, { mapping := [⟨[7], 0⟩],
                db := [(0, { hash := [7], timestamp := 0, sequence_number := some 0 })] })
    ∧ ({ mapping := [⟨[7], 0⟩],
         db := [(0, { hash := [7], timestamp := 0, sequence_number := some 0 })] }
           : LogState).db
        = exStateEmpty.db ++ findTail (dbTreeSize exStateEmpty.db) exProcFindOk.seqToEntry :=
  ⟨rfl, (C1_amended exInputsFindOk exStateEmpty _ exProcFindOk rfl rfl).1⟩

/-- C6: the scan of `UpdateTree` starts at the current Merkle leaf count and
appends database entries as leaves strictly in increasing sequence order,
stopping at the first entry whose sequence number differs from the expected
next index or at end of data (`takeSeqRun` consumes exactly that maximal
contiguous run of the scanned entries). -/
theorem C6_updateTree_scan (clock : Nat) (signOk : Bool) (db : Db) (s s' : TreeSignerState)
    (h : UpdateTree clock signOk db s = .ok s') :
    s'.leaves = s.leaves
      ++ takeSeqRun (scanEntries db (Int.ofNat s.leaves.length))
          (Int.ofNat s.leaves.length) :=
  (UpdateTree_ok_inv h).1

theorem C6_updateTree_scan_witness :
    UpdateTree 5 true exDbGap exTreeState0 = .ok exTreeAfterGap
    ∧ exTreeAfterGap.leaves = exTreeState0.leaves
        ++ takeSeqRun (scanEntries exDbGap (Int.ofNat exTreeState0.leaves.length))
            (Int.ofNat exTreeState0.leaves.length)
    ∧ exTreeAfterGap.leaves.length = 3 :=
  ⟨rfl, C6_updateTree_scan 5 true exDbGap exTreeState0 exTreeAfterGap rfl, rfl⟩

/-- C7: the timestamp of the tree head produced by `UpdateTree` is exactly
the clock reading clamped upward to at least max(last published timestamp +
1, largest entry timestamp appended during the scan), so in the absence of
`uint64_t` wraparound of `LastUpdateTime() + 1` the timestamps of consecutive
outputs are non-decreasing even when the clock reads earlier than the
previous output's timestamp. -/
theorem C7_timestamp_clamp (clock : Nat) (signOk : Bool) (db : Db) (s s' : TreeSignerState)
    (h : UpdateTree clock signOk db s = .ok s') :
    LastUpdateTime s' = max clock (List.foldl (fun m e => max m e.timestamp)
        ((LastUpdateTime s + 1) % 2 ^ 64)
        (takeSeqRun (scanEntries db (Int.ofNat s.leaves.length))
          (Int.ofNat s.leaves.length)))
    ∧ (LastUpdateTime s + 1 < 2 ^ 64 → LastUpdateTime s ≤ LastUpdateTime s') :=
  ⟨(UpdateTree_ok_inv h).2.1, fun hov => le_of_lt (UpdateTree_strict_mono h hov)⟩

theorem C7_timestamp_clamp_witness :
    UpdateTree 5 true ([] : Db) exTreeState0 = .ok exTreeAfterEmpty
    ∧ LastUpdateTime exTreeState0 = 10
    ∧ LastUpdateTime exTreeAfterEmpty = 11
    ∧ LastUpdateTime exTreeState0 ≤ LastUpdateTime exTreeAfterEmpty :=
  ⟨rfl, rfl, rfl,
    (C7_timestamp_clamp 5 true ([] : Db) exTreeState0 exTreeAfterEmpty rfl).2
      (by decide)⟩

/-- C10: across two consecutive successful `UpdateTree` rounds on the same
node the signed tree-head timestamps are strictly increasing (each round
starts its minimum acceptable timestamp at the previous head's timestamp plus
one and replaces `latest_tree_head_` at the end), provided
`LastUpdateTime() + 1` does not wrap around `2^64`. -/
theorem C10_strict_monotonicity (c1 c2 : Nat) (ok1 ok2 : Bool) (db1 db2 : Db)
    (s0 s1 s2 : TreeSignerState)
    (h1 : UpdateTree c1 ok1 db1 s0 = .ok s1)
    (h2 : UpdateTree c2 ok2 db2 s1 = .ok s2) :
    (LastUpdateTime s0 + 1 < 2 ^ 64 → LastUpdateTime s0 < LastUpdateTime s1)
    ∧ (LastUpdateTime s1 + 1 < 2 ^ 64 → LastUpdateTime s1 < LastUpdateTime s2) :=
  ⟨fun h => UpdateTree_strict_mono h1 h, fun h => UpdateTree_strict_mono h2 h⟩

theorem C10_strict_monotonicity_witness :
    UpdateTree 5 true ([] : Db) exTreeState0 = .ok exTreeAfterEmpty
    ∧ UpdateTree 0 true ([] : Db) exTreeAfterEmpty = .ok exTreeAfterEmpty2
    ∧ LastUpdateTime exTreeState0 < LastUpdateTime exTreeAfterEmpty
    ∧ LastUpdateTime exTreeAfterEmpty < LastUpdateTime exTreeAfterEmpty2 := by
  have h := C10_strict_monotonicity 5 0 true true ([] : Db) ([] : Db)
    exTreeState0 exTreeAfterEmpty exTreeAfterEmpty2 rfl rfl
  exact ⟨rfl, rfl, h.1 (by decide), h.2 (by decide)⟩

/-- C2: in a round at time `now`, every pending entry whose submission
timestamp is within the guard window of `now` is skipped (no mapping row and
no sequence number this round) and every older pending entry is processed:
the rebuilt mapping's hashes are exactly the hashes of the non-recent entries
in sorted order, the `seq_to_entry` values are the same entries up to
permutation, and up to permutation the same holds over the unsorted pending
set. -/
theorem C2_guard_window (inp : RoundInputs) (st : LogState) (r : ProcState)
    (pending : List LoggedEntry)
    (hp : inp.pendingEntries = .ok pending)
    (hr : roundProcessed inp st = .ok r) :
    r.newMapping.map MappingEntry.entry_hash
      = ((sortPending pending).filter
          (fun e => !tooRecent inp.now inp.guardWindow e)).map LoggedEntry.hash
    ∧ (r.seqToEntry.map (fun p => p.2.hash)).Perm
        (((sortPending pending).filter
          (fun e => !tooRecent inp.now inp.guardWindow e)).map LoggedEntry.hash)
    ∧ (r.newMapping.map MappingEntry.entry_hash).Perm
        ((pending.filter (fun e => !tooRecent inp.now inp.guardWindow e)).map
          LoggedEntry.hash) := by
  obtain ⟨c, t, pending0, hc, hneg, hmf, ht, hp0, hrun⟩ := roundProcessed_inv hr
  rw [hp] at hp0
  cases hp0
  have h1 := processPending_newMapping_hashes hrun
  have h2 := processPending_seqToEntry_hashes hrun
  simp only [List.map_nil, List.nil_append] at h1 h2
  refine ⟨h1, by simpa using h2, ?_⟩
  rw [h1]
  exact ((sortPending_perm pending).filter
    (fun e => !tooRecent inp.now inp.guardWindow e)).map LoggedEntry.hash

theorem C2_guard_window_witness :
    roundProcessed exInputsGuard exStateEmpty = .ok exProcGuard
    ∧ exProcGuard.newMapping.map MappingEntry.entry_hash
        = ((sortPending [exEntryA, exEntryB]).filter
            (fun e => !tooRecent exInputsGuard.now exInputsGuard.guardWindow e)).map
            LoggedEntry.hash
    ∧ exProcGuard.newMapping.map MappingEntry.entry_hash = [[2]] :=
  ⟨rfl,
    (C2_guard_window exInputsGuard exStateEmpty exProcGuard [exEntryA, exEntryB] rfl rfl).1,
    rfl⟩

/-- C3: the pending-entry comparator orders entries by submission timestamp
ascending with content hash ascending as the tie-break, and consequently for
two entries both newly sequenced in the same successful round, the one that
sorts first receives the strictly smaller sequence number. -/
theorem C3_ordering (inp : RoundInputs) (st : LogState) (r : ProcState)
    (pending : List LoggedEntry) (a b : LoggedEntry) (sa sb : Int)
    (hp : inp.pendingEntries = .ok pending)
    (hr : roundProcessed inp st = .ok r)
    (hnodup : (pending.map LoggedEntry.hash).Nodup)
    (ha : a ∈ pending) (hb : b ∈ pending)
    (htra : tooRecent inp.now inp.guardWindow a = false)
    (htrb : tooRecent inp.now inp.guardWindow b = false)
    (hnewa : a.hash ∉ st.mapping.map MappingEntry.entry_hash)
    (hnewb : b.hash ∉ st.mapping.map MappingEntry.entry_hash)
    (horder : a.timestamp < b.timestamp
      ∨ (a.timestamp = b.timestamp ∧ hashLt a.hash b.hash = true))
    (hma : (⟨a.hash, sa⟩ : MappingEntry) ∈ r.newMapping)
    (hmb : (⟨b.hash, sb⟩ : MappingEntry) ∈ r.newMapping) :
    sa < sb
    ∧ (∀ x y : LoggedEntry, pendingEntriesOrder x y = true ↔
        (x.timestamp < y.timestamp
          ∨ (x.timestamp = y.timestamp ∧ hashLt x.hash y.hash = true))) := by
  refine ⟨?_, fun x y => pendingEntriesOrder_iff⟩
  obtain ⟨c, t, pending0, hc, hneg, hmf, ht, hp0, hrun⟩ := roundProcessed_inv hr
  rw [hp] at hp0
  cases hp0
  obtain ⟨htrows, hmnod⟩ := buildSequencedHashes_inv ht
  have hpeo : pendingEntriesOrder a b = true := pendingEntriesOrder_iff.mpr horder
  have hne : a ≠ b := by
    intro heq
    subst heq
    rcases horder with hlt | ⟨_, hlt⟩
    · omega
    · rw [hashLt_irrefl] at hlt
      cases hlt
  have hab : a.hash ≠ b.hash := by
    intro heq
    exact hne (List.inj_on_of_nodup_map hnodup ha hb heq)
  have hlooka : lookupTable t a.hash = none := by
    rw [htrows, lookupTable_mappingRows]
    rw [assocSeq_eq_none_iff.mpr hnewa]
    rfl
  have hlookb : lookupTable t b.hash = none := by
    rw [htrows, lookupTable_mappingRows]
    rw [assocSeq_eq_none_iff.mpr hnewb]
    rfl
  have hsortnod : ((sortPending pending).map LoggedEntry.hash).Nodup :=
    ((sortPending_perm pending).map LoggedEntry.hash).nodup_iff.mpr hnodup
  have hrunnod : (r.newMapping.map MappingEntry.entry_hash).Nodup := by
    have h1 := processPending_newMapping_hashes hrun
    simp only [List.map_nil, List.nil_append] at h1
    rw [h1]
    exact ((List.filter_sublist _).map LoggedEntry.hash).nodup hsortnod
  exact processPending_new_order hrun hrunnod (sortPending_sorted pending) hsortnod
    ((sortPending_perm pending).mem_iff.mpr ha) ((sortPending_perm pending).mem_iff.mpr hb)
    htra htrb hlooka hlookb (by simp) (by simp) hab hpeo hma hmb

theorem C3_ordering_witness :
    roundProcessed exInputsOrder exStateEmpty = .ok exProcOrder
    ∧ (⟨[2], 0⟩ : MappingEntry) ∈ exProcOrder.newMapping
    ∧ (⟨[3], 1⟩ : MappingEntry) ∈ exProcOrder.newMapping
    ∧ (0 : Int) < 1 :=
  ⟨rfl, by decide, by decide,
    (C3_ordering exInputsOrder exStateEmpty exProcOrder [exEntryD, exEntryB]
      exEntryB exEntryD 0 1 rfl rfl (by decide) (by decide) (by decide)
      (by decide) (by decide) (by decide) (by decide)
      (Or.inl (by decide)) (by decide) (by decide)).1⟩

/-- C5: running a sequencing round twice with the same pending-entry set and
no new submissions in between (so no pending entry changes its guard-window
status) produces an identical sequence mapping both times: the second round
finds every processed entry already assigned in the mapping written by the
first round, reuses every assignment, and writes back exactly the same
hash-to-sequence-number pairs. -/
theorem C5_idempotent (inp inp2 : RoundInputs) (st : LogState) (m1 : List MappingEntry)
    (pending : List LoggedEntry) (c2 : Int)
    (h1 : computedMapping inp st = .ok m1)
    (hp : inp.pendingEntries = .ok pending)
    (hnodup : (pending.map LoggedEntry.hash).Nodup)
    (hns : ∀ e ∈ pending, e.sequence_number = none)
    (hagree : ∀ e ∈ pending, tooRecent inp2.now inp2.guardWindow e
      = tooRecent inp.now inp.guardWindow e)
    (h2c : inp2.nextSeqNum = .ok c2) (hc2 : ¬c2 < 0)
    (h2mf : inp2.getMappingFault = none)
    (h2p : inp2.pendingEntries = .ok pending)
    (h2s : inp2.servingSth = inp.servingSth) :
    computedMapping inp2 { st with mapping := m1 } = .ok m1 := by
  obtain ⟨r1, z, hchk, hm1⟩ := computedMapping_inv h1
  obtain ⟨hrp, hz, hv, hl⟩ := roundChecked_inv hchk
  obtain ⟨c1, t1, pending0, hc1, hneg1, hmf1, ht1, hp1, hrun1⟩ := roundProcessed_inv hrp
  rw [hp] at hp1
  cases hp1
  subst hm1
  have hsortnod : ((sortPending pending).map LoggedEntry.hash).Nodup :=
    ((sortPending_perm pending).map LoggedEntry.hash).nodup_iff.mpr hnodup
  have h1h := processPending_newMapping_hashes hrun1
  simp only [List.map_nil, List.nil_append] at h1h
  have hfn : (((sortPending pending).filter
      (fun e => !tooRecent inp.now inp.guardWindow e)).map LoggedEntry.hash).Nodup :=
    ((List.filter_sublist _).map LoggedEntry.hash).nodup hsortnod
  have hrunnod : (r1.newMapping.map MappingEntry.entry_hash).Nodup := by
    rw [h1h]
    exact hfn
  have hperm : (sortMappingBySeq r1.newMapping).Perm r1.newMapping :=
    sortMappingBySeq_perm r1.newMapping
  have hm1nod : ((sortMappingBySeq r1.newMapping).map MappingEntry.entry_hash).Nodup :=
    (hperm.map MappingEntry.entry_hash).nodup_iff.mpr hrunnod
  have ht2 : buildSequencedHashes (sortMappingBySeq r1.newMapping)
      = .ok ((sortMappingBySeq r1.newMapping).map mappingRow) :=
    buildSequencedHashes_ok hm1nod
  have htb : ∀ e ∈ sortPending pending, tooRecent inp.now inp.guardWindow e = false →
      lookupTable ((sortMappingBySeq r1.newMapping).map mappingRow) e.hash
        = (assocSeq r1.newMapping e.hash).map (fun v => (v, false)) := by
    intro e _ _
    rw [lookupTable_mappingRows, assocSeq_eq_of_perm hperm hm1nod]
  have hcover : ∀ row ∈ (sortMappingBySeq r1.newMapping).map mappingRow,
      row.2.2 = true ∨ row.1 ∈ ((sortPending pending).filter
        (fun e => !tooRecent inp.now inp.guardWindow e)).map LoggedEntry.hash := by
    intro row hrow
    obtain ⟨m, hm, hrow2⟩ := List.mem_map.mp hrow
    right
    rw [← hrow2, ← h1h]
    exact (hperm.map MappingEntry.entry_hash).mem_iff.mp
      (List.mem_map_of_mem MappingEntry.entry_hash hm)
  have htnod : (((sortMappingBySeq r1.newMapping).map mappingRow).map
      (fun row => row.1)).Nodup := by
    have hmaps : ((sortMappingBySeq r1.newMapping).map mappingRow).map (fun row => row.1)
        = (sortMappingBySeq r1.newMapping).map MappingEntry.entry_hash := by
      simp [mappingRow]
    rw [hmaps]
    exact hm1nod
  have hnssort : ∀ e ∈ sortPending pending, e.sequence_number = none :=
    fun e he => hns e ((sortPending_perm pending).mem_iff.mp he)
  have hagreesort : ∀ e ∈ sortPending pending, tooRecent inp2.now inp2.guardWindow e
      = tooRecent inp.now inp.guardWindow e :=
    fun e he => hagree e ((sortPending_perm pending).mem_iff.mp he)
  obtain ⟨r2, hrun2, hnm2, hpres2⟩ := @processPending_rerun (sortPending pending)
    { newMapping := [], seqToEntry := [], table := t1, next := c1, numSequenced := 0 }
    { newMapping := [], seqToEntry := [],
      table := (sortMappingBySeq r1.newMapping).map mappingRow,
      next := c2, numSequenced := 0 }
    r1 r1.newMapping inp.now inp.guardWindow inp2.now inp2.guardWindow hrun1 hagreesort
    (by simp) hfn hnssort rfl htnod htb hcover
  have hrp2 : roundProcessed inp2 { st with mapping := sortMappingBySeq r1.newMapping }
      = .ok r2 :=
    roundProcessed_mk h2c hc2 h2mf ht2 h2p hrun2
  have hz2 : getServingSize inp2 = .ok z := by
    unfold getServingSize at hz ⊢
    rw [h2s]
    exact hz
  have hv2 : servingCheckVanished r2.table z = .ok () :=
    servingCheckVanished_ok_of_present hpres2
  have hnm2a : r2.newMapping = r1.newMapping := by simpa using hnm2
  have hl2 : lowestSeqCheck (sortMappingBySeq r2.newMapping) z = .ok () := by
    rw [hnm2a]
    exact hl
  have hfinal := computedMapping_mk (roundChecked_mk hrp2 hz2 hv2 hl2)
  rw [hnm2a] at hfinal
  exact hfinal

theorem C5_idempotent_witness :
    computedMapping exInputsGuard exStateEmpty = .ok [⟨[2], 0⟩]
    ∧ computedMapping exInputsGuardAgain { exStateEmpty with mapping := [⟨[2], 0⟩] }
        = .ok [⟨[2], 0⟩] :=
  ⟨rfl,
    C5_idempotent exInputsGuard exInputsGuardAgain exStateEmpty [⟨[2], 0⟩]
      [exEntryA, exEntryB] 7 rfl rfl (by decide) (by decide) (by decide) rfl (by decide)
      rfl rfl rfl⟩
